import Mathlib

/-!
# Execution-Graph: processing nodes

A shallow embedding of the three layers of the repository

* `proc_node` (`src/include/proc_node.hpp`): the unsynchronised FIFO join buffer,
* `shared_proc_node` (`src/include/shared_proc_node.hpp`): the same operations under a lock,
  with an optionally blocking `enqueue`,
* `active_proc_node` (`src/include/active_proc_node.hpp`): the node that owns a worker thread,

followed by theorems about them.

Modelling conventions.

* An `Input_T` tuple (a `boost::fusion` sequence) is a `List V` of its components; the
  value-initialised tuple `Input_T()` is the parameter `dflt`, and `CARDINALITY` is its length.
* `std::deque<Input_T>` is a `List`; `front`, `pop_front`, `push_back` and `operator[]` are the
  list operations. Indexing a deque outside its bounds and popping an empty deque are undefined
  in C++; the theorems that depend on such an access carry the hypothesis `proc_node.WF`,
  which holds in every state that calls on a node as constructed bring about
  (`trace.WF_run`).
* `size_t` values are natural numbers, `++` and `--` are computed modulo `2 ^ 64`.
* A derived class (CRTP) contributes its strategy `visit_impl`, modelled as a function of the
  derived object's own members `D` and of the input queue it can read through `inputQueue()`;
  it returns normally or throws, see `outcome`.
* The worker thread of an `active_proc_node` is the position `thread_state` it has reached in
  `run()`; what it does between two such positions is one step. The threads of a program
  interleave their steps and the member functions they call under the lock, see
  `active_proc_node.step`. `boost::thread::interrupt`, `join` and `timed_join` behave as Boost
  documents them: an interruption is delivered when the thread enters or leaves
  `condition_variable_any::wait`, the only interruption point of `run()`.
-/

namespace ExecutionGraph

/-! ## `size_t` arithmetic -/

/-- The number of values of the 64-bit type `size_t`. -/
def SIZE_T_MOD : Nat := 2 ^ 64

/-- Pre-increment `++x` of a `size_t`. -/
def size_t_incr (x : Nat) : Nat := (x + 1) % SIZE_T_MOD

/-- Pre-decrement `--x` of a `size_t`. -/
def size_t_decr (x : Nat) : Nat := (x + SIZE_T_MOD - 1) % SIZE_T_MOD

/-! ## `proc_node` -/

/-- The data members of `proc_node<Derived_T, Input_T, Output_T>`. -/
structure proc_node (V : Type) where
  /-- The maximum allowed queue size, `0` for unbounded. -/
  m_maxQueueSize : Nat
  /-- The work queue, front first. -/
  m_inputs : List (List V)
  /-- For every slot, the number of queued tuples whose slot is filled. -/
  m_numInputs : List Nat
deriving DecidableEq, Repr

/-- What `visit()` throws. -/
inductive visit_error (E : Type) where
  /-- The `std::runtime_error("proc_node not ready")` thrown by `visit()` itself. -/
  | not_ready : visit_error E
  /-- An exception that escaped `Derived_T::visit_impl()`. -/
  | strategy_fault (e : E) : visit_error E
deriving DecidableEq, Repr

/-- The outcome of a call that returns an `O` or throws an `X`. -/
inductive outcome (X O : Type) where
  | returned (output : O) : outcome X O
  | thrown (x : X) : outcome X O
deriving DecidableEq, Repr

/-- The type of `Derived_T::visit_impl()`: it reads the derived object and the input queue,
may update the derived object, and returns an output or throws. -/
abbrev strategy (V D E O : Type) : Type := D → List (List V) → outcome E O × D

namespace proc_node

variable {V D E O : Type}

/-- `proc_node(size_t maxQueueSize)`: empty queue, value-initialised counters. -/
def ctor (CARDINALITY : Nat) (maxQueueSize : Nat) : proc_node V :=
  { m_maxQueueSize := maxQueueSize, m_inputs := [], m_numInputs := List.replicate CARDINALITY 0 }

/-- `enqueue<N>(component)`. -/
def enqueue (dflt : List V) (s : proc_node V) (N : Nat) (component : V) : Bool × proc_node V :=
  -- Return false if the queue is full.
  if s.m_maxQueueSize ≠ 0 ∧ s.m_inputs.length ≥ s.m_maxQueueSize then (false, s)
  else
    let NUM_INPUTS := s.m_numInputs.getD N 0
    -- Create a new input tuple.
    let inputs := if s.m_inputs.length = NUM_INPUTS then s.m_inputs ++ [dflt] else s.m_inputs
    -- Update the tuple.
    let inputs := inputs.modify (fun tuple => tuple.set N component) NUM_INPUTS
    (true, { s with m_inputs := inputs, m_numInputs := s.m_numInputs.modify size_t_incr N })

/-- `maxQueueSize() const`. -/
def maxQueueSize (s : proc_node V) : Nat := s.m_maxQueueSize

/-- `maxQueueSize(size_t size)`. -/
def set_maxQueueSize (s : proc_node V) (size : Nat) : proc_node V :=
  { s with m_maxQueueSize := size }

/-- `queueSize() const`. -/
def queueSize (s : proc_node V) : Nat := s.m_inputs.length

/-- `is_ready() const`: no counter is zero. -/
def is_ready (s : proc_node V) : Bool := s.m_numInputs.all (fun n => n != 0)

/-- `visit()`: the first component is what the call returns or throws, then the derived
object and the node after the call. -/
def visit (visit_impl : strategy V D E O) (d : D) (s : proc_node V) :
    outcome (visit_error E) O × D × proc_node V :=
  if !s.is_ready then (.thrown .not_ready, d, s)
  else
    match visit_impl d s.m_inputs with
    | (.thrown e, d') => (.thrown (.strategy_fault e), d', s)
    | (.returned output, d') =>
      (.returned output, d',
        { s with m_inputs := s.m_inputs.tail, m_numInputs := s.m_numInputs.map size_t_decr })

/-- The states a `proc_node` with `CARDINALITY` slots can be in without having left defined
behaviour: one counter per slot, every tuple has every slot, no counter points beyond the end
of the deque, and the deque holds fewer than `SIZE_MAX` tuples. -/
structure WF (CARDINALITY : Nat) (s : proc_node V) : Prop where
  counters : s.m_numInputs.length = CARDINALITY
  tuples : ∀ t ∈ s.m_inputs, t.length = CARDINALITY
  in_range : ∀ n ∈ s.m_numInputs, n ≤ s.m_inputs.length
  max_size : s.m_inputs.length + 1 < SIZE_T_MOD

end proc_node

/-! ## `shared_proc_node` -/

namespace shared_proc_node

variable {V D E O : Type}

/-- `shared_proc_node(size_t maxQueueSize)`. -/
def ctor (CARDINALITY : Nat) (maxQueueSize : Nat) : proc_node V :=
  proc_node.ctor CARDINALITY maxQueueSize

/-- `maxQueueSize() const`, under the lock. -/
def maxQueueSize (s : proc_node V) : Nat := proc_node.maxQueueSize s

/-- `maxQueueSize(size_t size)`, under the lock. -/
def set_maxQueueSize (s : proc_node V) (size : Nat) : proc_node V :=
  proc_node.set_maxQueueSize s size

/-- `queueSize() const`, under the lock. -/
def queueSize (s : proc_node V) : Nat := proc_node.queueSize s

/-- `is_ready() const`, under the lock. -/
def is_ready (s : proc_node V) : Bool := proc_node.is_ready s

/-- `enqueue<N>(component, block)`, run under the lock. With `block` set and the queue full
the caller waits on `m_cond`: the call has not returned, which is `none`. -/
def enqueue (dflt : List V) (s : proc_node V) (N : Nat) (component : V) (block : Bool) :
    Option (Bool × proc_node V) :=
  if block = true ∧ (maxQueueSize s ≠ 0 ∧ queueSize s ≥ maxQueueSize s) then none
  else some (proc_node.enqueue dflt s N component)

/-- `visit()`, under the lock. -/
def visit (visit_impl : strategy V D E O) (d : D) (s : proc_node V) :
    outcome (visit_error E) O × D × proc_node V :=
  proc_node.visit visit_impl d s

end shared_proc_node

/-! ## `active_proc_node` -/

/-- Where the worker thread held by `m_thread` stands in `run()`. -/
inductive thread_state where
  /-- The default-constructed `boost::thread`, or one that has been joined: no thread. -/
  | not_a_thread
  /-- The thread has been created by `startup()`; `run()` has not set `m_running` yet. -/
  | created
  /-- About to evaluate `while (! m_shutdown)`. -/
  | loop_test
  /-- In the loop, about to take the lock and evaluate `while (! this->is_ready())`. -/
  | loop_body
  /-- Parked in `this->cond().wait(l)`. -/
  | waiting
  /-- Out of the `try` block, about to take the lock and clear `m_startup`, `m_running`. -/
  | leaving
  /-- The function `run()` has returned; the thread has not been joined. -/
  | finished
deriving DecidableEq, Repr

/-- The data members of `active_proc_node<Derived_T, Input_T, Output_T>`, with the members
`base` of its base class and `derived` of its derived class, the interruption flag that
`boost::thread` keeps for the worker, and the number of threads created so far. -/
structure active_proc_node (V D : Type) where
  base : proc_node V
  derived : D
  /-- Set when startup has been called. -/
  m_startup : Bool
  /-- Set when the worker thread is currently running. -/
  m_running : Bool
  /-- Set when a shutdown has been signaled. -/
  m_shutdown : Bool
  m_thread : thread_state
  interruption_requested : Bool
  threads_created : Nat
deriving DecidableEq, Repr

namespace active_proc_node

variable {V D E O : Type}

/-- `active_proc_node(size_t maxQueueSize)`; `d` is the derived object as constructed. -/
def ctor (CARDINALITY : Nat) (maxQueueSize : Nat) (d : D) : active_proc_node V D :=
  { base := shared_proc_node.ctor CARDINALITY maxQueueSize
    derived := d
    m_startup := false
    m_running := false
    m_shutdown := false
    m_thread := .not_a_thread
    interruption_requested := false
    threads_created := 0 }

/-- `startup()`, under the lock. The new `boost::thread` starts without a pending
interruption; its creation is taken to succeed. -/
def startup (a : active_proc_node V D) : Bool × active_proc_node V D :=
  if !a.m_startup then
    (true, { a with
      m_startup := true
      m_running := false
      m_shutdown := false
      m_thread := .created
      interruption_requested := false
      threads_created := a.threads_created + 1 })
  else
    (false, a)

/-- `running() const`, under the lock. -/
def running (a : active_proc_node V D) : Bool := a.m_running

/-- The worker has left the `try` block of `run()`. -/
def leave (a : active_proc_node V D) : active_proc_node V D :=
  { a with m_thread := .leaving }

/-- `boost::thread_interrupted` is thrown at an interruption point; the flag is cleared and
the first `catch` of `run()` takes the worker out of the loop. -/
def interrupted (a : active_proc_node V D) : active_proc_node V D :=
  leave { a with interruption_requested := false }

/-- The body of the loop of `run()` from `while (! this->is_ready())` on, under the lock:
without a complete tuple the worker enters `wait`, which is an interruption point; with one
it calls `this->visit()`, and an exception of `visit()` takes it to `catch (...)`. -/
def iteration (visit_impl : strategy V D E O) (a : active_proc_node V D) :
    active_proc_node V D :=
  if !shared_proc_node.is_ready a.base then
    if a.interruption_requested then interrupted a else { a with m_thread := .waiting }
  else
    match shared_proc_node.visit visit_impl a.derived a.base with
    | (.returned _, d, s) => { a with base := s, derived := d, m_thread := .loop_test }
    | (.thrown _, d, s) => leave { a with base := s, derived := d }

/-- One step of the worker thread in `run()`. A worker that is `waiting` takes its step when
it is woken, by a notification, by an interruption or spuriously. -/
def run (visit_impl : strategy V D E O) (a : active_proc_node V D) : active_proc_node V D :=
  match a.m_thread with
  | .created => { a with m_running := true, m_thread := .loop_test }
  | .loop_test => if a.m_shutdown then leave a else { a with m_thread := .loop_body }
  | .loop_body => iteration visit_impl a
  | .waiting => if a.interruption_requested then interrupted a else iteration visit_impl a
  | .leaving => { a with m_startup := false, m_running := false, m_thread := .finished }
  | .finished => a
  | .not_a_thread => a

/-- `m_thread.interrupt()`: nothing without a thread. -/
def interrupt (a : active_proc_node V D) : active_proc_node V D :=
  if a.m_thread = .not_a_thread then a else { a with interruption_requested := true }

/-- The worker has exited, or there is none. -/
def exited (a : active_proc_node V D) : Bool :=
  a.m_thread = .finished || a.m_thread = .not_a_thread

/-- `join()` is `m_thread.join()`: it returns once `run()` has returned, and `m_thread` is
then not a thread. While the caller is blocked the worker takes its steps; `fuel` is the
number of steps it is given, and `none` is a caller that is still blocked after them. -/
def join (visit_impl : strategy V D E O) :
    Nat → active_proc_node V D → Option (active_proc_node V D)
  | 0, a => if a.exited then some { a with m_thread := .not_a_thread } else none
  | fuel + 1, a =>
    if a.exited then some { a with m_thread := .not_a_thread }
    else join visit_impl fuel (run visit_impl a)

/-- `m_thread.timed_join(...)`: as `join()`, but it returns when the time is over, here after
`fuel` steps of the worker, whether the worker has exited or not. -/
def timed_join (visit_impl : strategy V D E O) :
    Nat → active_proc_node V D → active_proc_node V D
  | 0, a => if a.exited then { a with m_thread := .not_a_thread } else a
  | fuel + 1, a =>
    if a.exited then { a with m_thread := .not_a_thread }
    else timed_join visit_impl fuel (run visit_impl a)

/-- The first two statements of `shutdown`: `m_shutdown = true; m_thread.interrupt();`. -/
def signal_shutdown (a : active_proc_node V D) : active_proc_node V D :=
  interrupt { a with m_shutdown := true }

/-- `shutdown(block, timeout)`, the worker being given `fuel` steps while the caller waits. -/
def shutdown (visit_impl : strategy V D E O) (fuel : Nat) (a : active_proc_node V D)
    (block : Bool) (timeout : Nat) : Option (active_proc_node V D) :=
  let a := signal_shutdown a
  if block then
    if timeout = 0 then join visit_impl fuel a
    else some (timed_join visit_impl fuel a)
  else some a

/-- What the threads of a program can do to an `active_proc_node`, one atomic step each: the
public member functions called by client threads (a blocking `shutdown` is its signal followed
later by the return of its join) and the steps of the worker. -/
inductive step (dflt : List V) (visit_impl : strategy V D E O) :
    active_proc_node V D → active_proc_node V D → Prop where
  | startup (a : active_proc_node V D) : step dflt visit_impl a a.startup.2
  | signal_shutdown (a : active_proc_node V D) : step dflt visit_impl a a.signal_shutdown
  | join (a : active_proc_node V D) (h : a.exited = true) :
      step dflt visit_impl a { a with m_thread := .not_a_thread }
  | run (a : active_proc_node V D) : step dflt visit_impl a (run visit_impl a)
  | enqueue (a : active_proc_node V D) (N : Nat) (component : V) (block : Bool)
      (r : Bool × proc_node V)
      (h : shared_proc_node.enqueue dflt a.base N component block = some r) :
      step dflt visit_impl a { a with base := r.2 }
  | visit (a : active_proc_node V D) :
      step dflt visit_impl a
        { a with
          base := (shared_proc_node.visit visit_impl a.derived a.base).2.2
          derived := (shared_proc_node.visit visit_impl a.derived a.base).2.1 }
  | maxQueueSize (a : active_proc_node V D) (size : Nat) :
      step dflt visit_impl a { a with base := shared_proc_node.set_maxQueueSize a.base size }

/-- The states of a node constructed with `maxQueueSize` and derived object `d` that its
threads can bring about. -/
def reachable (dflt : List V) (visit_impl : strategy V D E O) (maxQueueSize : Nat) (d : D)
    (a : active_proc_node V D) : Prop :=
  Relation.ReflTransGen (step dflt visit_impl) (ctor dflt.length maxQueueSize d) a

/-- The flags say where the worker is: `m_startup` is set exactly while there is a worker that
has not exited, and `m_running` is set only while the worker is between the first and the last
statement of `run()`. -/
def flags_ok (a : active_proc_node V D) : Prop :=
  (a.m_startup = false ↔ a.exited = true) ∧
    (a.m_running = true →
      a.m_thread = .loop_test ∨ a.m_thread = .loop_body ∨ a.m_thread = .waiting ∨
        a.m_thread = .leaving)

end active_proc_node

/-! ## Calls made one after the other on a `proc_node` -/

/-- A call made by a client of a `proc_node`. -/
inductive call (V : Type) where
  /-- The call `enqueue<N>(component)`. -/
  | enqueue (N : Nat) (component : V) : call V
  /-- The call `visit()`. -/
  | visit : call V
deriving DecidableEq, Repr

/-- What a client has seen so far: the node, the derived object, and the values returned by
the calls of `visit()` that did not throw, oldest first. -/
structure trace (V D O : Type) where
  node : proc_node V
  derived : D
  outputs : List O

/-- One call. A `visit()` that throws is caught by the client, which goes on. -/
def trace.step {V D E O : Type} (dflt : List V) (visit_impl : strategy V D E O)
    (t : trace V D O) : call V → trace V D O
  | .enqueue N component => { t with node := (proc_node.enqueue dflt t.node N component).2 }
  | .visit =>
    match proc_node.visit visit_impl t.derived t.node with
    | (.returned output, d, s) => { node := s, derived := d, outputs := t.outputs ++ [output] }
    | (.thrown _, d, s) => { node := s, derived := d, outputs := t.outputs }

/-- The calls `cs` made in order on a node constructed with `maxQueueSize`. -/
def trace.run {V D E O : Type} (dflt : List V) (visit_impl : strategy V D E O) (d : D)
    (maxQueueSize : Nat) (cs : List (call V)) : trace V D O :=
  cs.foldl (trace.step dflt visit_impl)
    { node := proc_node.ctor dflt.length maxQueueSize, derived := d, outputs := [] }

/-- The values passed to `enqueue<N>` by the calls `cs`, oldest first. -/
def enqueued {V : Type} (N : Nat) : List (call V) → List V
  | [] => []
  | .enqueue M component :: cs =>
    if M = N then component :: enqueued N cs else enqueued N cs
  | .visit :: cs => enqueued N cs

/-- All the calls of `enqueue<N>` in `cs` name a slot of the tuple, as the compiler checks. -/
def slots_ok {V : Type} (CARDINALITY : Nat) (cs : List (call V)) : Bool :=
  cs.all fun c =>
    match c with
    | .enqueue N _ => decide (N < CARDINALITY)
    | .visit => true

/-- A call made by a client of a `proc_node`, a change of the capacity included. -/
inductive member_call (V : Type) where
  /-- A call of `enqueue<N>(component)` or of `visit()`. -/
  | call (c : call V) : member_call V
  /-- The call `maxQueueSize(size)`. -/
  | maxQueueSize (size : Nat) : member_call V
deriving DecidableEq, Repr

/-- One call, which may be a change of the capacity. -/
def trace.apply {V D E O : Type} (dflt : List V) (visit_impl : strategy V D E O)
    (t : trace V D O) : member_call V → trace V D O
  | .call c => trace.step dflt visit_impl t c
  | .maxQueueSize size => { t with node := t.node.set_maxQueueSize size }

/-- The calls `cs`, changes of the capacity among them, made in order on a node constructed
with `maxQueueSize`. -/
def trace.exec {V D E O : Type} (dflt : List V) (visit_impl : strategy V D E O) (d : D)
    (maxQueueSize : Nat) (cs : List (member_call V)) : trace V D O :=
  cs.foldl (trace.apply dflt visit_impl)
    { node := proc_node.ctor dflt.length maxQueueSize, derived := d, outputs := [] }

/-! ## The nodes of the unit tests -/

/-- The component types of `boost::fusion::vector<int, char, std::string>`. -/
inductive Val where
  | int (n : Int)
  | char (c : Char)
  | string (s : String)
deriving DecidableEq, Repr

/-- The value-initialised `vector_t()`. -/
def vector_t_default : List Val := [.int 0, .char (Char.ofNat 0), .string ""]

/-- The strategy `my_proc_node::visit_impl`: `return this->inputQueue().front();`. -/
def my_proc_node.visit_impl {V : Type} (dflt : List V) : strategy V Unit Empty (List V) :=
  fun d queue => (.returned (queue.headD dflt), d)


/-- The calls that `proc_node_tests` makes on its node. -/
def proc_node_tests : List (call Val) :=
  [.enqueue 0 (.int 1), .enqueue 1 (.char 'x'), .enqueue 1 (.char 'y'),
    .enqueue 2 (.string "howdy"), .visit,
    .enqueue 0 (.int 2), .enqueue 2 (.string "pardner"), .visit]

/-- The node of `proc_node_tests` after its first three calls. -/
def node_after_three : proc_node Val :=
  (trace.run vector_t_default (my_proc_node.visit_impl vector_t_default) () 0
    (proc_node_tests.take 3)).node

/-- The node of `proc_node_tests` after its first four calls: the front tuple is complete. -/
def node_after_four : proc_node Val :=
  (trace.run vector_t_default (my_proc_node.visit_impl vector_t_default) () 0
    (proc_node_tests.take 4)).node

/-- A node of capacity one that holds the incomplete tuple `(1, _, _)`. -/
def node_full : proc_node Val :=
  (trace.run vector_t_default (my_proc_node.visit_impl vector_t_default) () 1
    [.enqueue 0 (.int 1)]).node

/-- A strategy that throws whatever it is given. -/
def faulty_visit_impl : strategy Val Unit String (List Val) :=
  fun d _ => (.thrown "fault", d)

/-- The active node of `active_proc_node_thread_tests` after `startup()`, once its worker has
found the queue empty and waits. -/
def node_waiting : active_proc_node Val Unit :=
  active_proc_node.run (my_proc_node.visit_impl vector_t_default)
    (active_proc_node.run (my_proc_node.visit_impl vector_t_default)
      (active_proc_node.run (my_proc_node.visit_impl vector_t_default)
        (active_proc_node.ctor 3 0 ()).startup.2))

/-- An active node on which the first `n` calls of `proc_node_tests` have been made. -/
def node_enqueued (n : Nat) : active_proc_node Val Unit :=
  { (active_proc_node.ctor 3 0 () : active_proc_node Val Unit) with
    base := (trace.run vector_t_default (my_proc_node.visit_impl vector_t_default) () 0
      (proc_node_tests.take n)).node }

/-- An active node with the faulty strategy: the four values of the first tuple have been
enqueued, `startup()` has been called, and the worker has entered its loop. -/
def node_faulting : active_proc_node Val Unit :=
  active_proc_node.run faulty_visit_impl
    (active_proc_node.run faulty_visit_impl (active_proc_node.startup (node_enqueued 4)).2)

/-! ## Lemmas on lists -/

theorem take_succ_modify {α : Type} (f : α → α) (p : Nat) (q : List α) (h : p < q.length) :
    (List.modify f p q).take (p + 1) = q.take p ++ [f q[p]] := by
  rw [List.modify_eq_take_cons_drop h, List.take_append_eq_append_take]
  have hp : (List.take p q).length = p := by
    rw [List.length_take]
    omega
  rw [hp, List.take_of_length_le (by omega)]
  simp

theorem map_modify_of_eq {α β : Type} (g : α → β) (f : α → α) (hgf : ∀ a, g (f a) = g a)
    (p : Nat) (q : List α) : (List.modify f p q).map g = q.map g := by
  apply List.ext_getElem?
  intro k
  simp only [List.getElem?_map, List.getElem?_modify]
  cases q[k]? with
  | none => rfl
  | some a =>
    by_cases hk : p = k <;> simp [hk, hgf]

theorem mem_modify {α : Type} (f : α → α) (p : Nat) (q : List α) (a : α)
    (h : a ∈ List.modify f p q) : a ∈ q ∨ ∃ b ∈ q, a = f b := by
  obtain ⟨k, hk, rfl⟩ := List.mem_iff_getElem.mp h
  rw [List.length_modify] at hk
  rw [List.getElem_modify]
  by_cases hpk : p = k
  · right
    exact ⟨q[k], List.getElem_mem hk, by simp [hpk]⟩
  · left
    simp [hpk, List.getElem_mem hk]

/-! ## Lemmas on `size_t` arithmetic -/

theorem size_t_incr_eq {x : Nat} (h : x + 1 < SIZE_T_MOD) : size_t_incr x = x + 1 := by
  unfold size_t_incr
  exact Nat.mod_eq_of_lt h

theorem size_t_decr_eq {x : Nat} (h0 : x ≠ 0) (h : x < SIZE_T_MOD) : size_t_decr x = x - 1 := by
  unfold size_t_decr SIZE_T_MOD at *
  omega

/-! ## Lemmas on `proc_node` -/

namespace proc_node

variable {V D E O : Type}

theorem is_ready_iff_forall (s : proc_node V) :
    s.is_ready = true ↔ ∀ n ∈ s.m_numInputs, n ≠ 0 := by
  simp [is_ready, List.all_eq_true]

theorem visit_of_not_ready (visit_impl : strategy V D E O) (d : D) (s : proc_node V)
    (h : s.is_ready = false) : s.visit visit_impl d = (.thrown .not_ready, d, s) := by
  simp [visit, h]

theorem visit_of_returned (visit_impl : strategy V D E O) (d d' : D) (s : proc_node V)
    (output : O) (h : s.is_ready = true)
    (hv : visit_impl d s.m_inputs = (.returned output, d')) :
    s.visit visit_impl d = (.returned output, d',
      { s with m_inputs := s.m_inputs.tail, m_numInputs := s.m_numInputs.map size_t_decr }) := by
  simp [visit, h, hv]

theorem visit_of_thrown (visit_impl : strategy V D E O) (d d' : D) (s : proc_node V) (e : E)
    (h : s.is_ready = true) (hv : visit_impl d s.m_inputs = (.thrown e, d')) :
    s.visit visit_impl d = (.thrown (.strategy_fault e), d', s) := by
  simp [visit, h, hv]

theorem enqueue_of_full (dflt : List V) (s : proc_node V) (N : Nat) (component : V)
    (h0 : s.m_maxQueueSize ≠ 0) (h : s.m_maxQueueSize ≤ s.m_inputs.length) :
    s.enqueue dflt N component = (false, s) := by
  simp [enqueue, h0, h]

/-- The queue after an `enqueue` that is let in. -/
theorem enqueue_of_not_full (dflt : List V) (s : proc_node V) (N : Nat) (component : V)
    (h : s.m_maxQueueSize = 0 ∨ s.m_inputs.length < s.m_maxQueueSize) :
    s.enqueue dflt N component = (true,
      { m_maxQueueSize := s.m_maxQueueSize
        m_inputs := List.modify (fun tuple => tuple.set N component) (s.m_numInputs.getD N 0)
          (if s.m_inputs.length = s.m_numInputs.getD N 0 then s.m_inputs ++ [dflt]
            else s.m_inputs)
        m_numInputs := s.m_numInputs.modify size_t_incr N }) := by
  have : ¬ (s.m_maxQueueSize ≠ 0 ∧ s.m_inputs.length ≥ s.m_maxQueueSize) := by
    rintro ⟨h0, h1⟩
    rcases h with h | h
    · exact h0 h
    · omega
  simp only [enqueue, this, if_false]

/-- An `enqueue` never shrinks the queue and adds at most one tuple to it. -/
theorem length_enqueue (dflt : List V) (s : proc_node V) (N : Nat) (component : V) :
    s.m_inputs.length ≤ (s.enqueue dflt N component).2.m_inputs.length ∧
      (s.enqueue dflt N component).2.m_inputs.length ≤ s.m_inputs.length + 1 := by
  unfold enqueue
  split
  · simp
  · simp only [List.length_modify]
    split <;> simp

theorem maxQueueSize_enqueue (dflt : List V) (s : proc_node V) (N : Nat) (component : V) :
    (s.enqueue dflt N component).2.m_maxQueueSize = s.m_maxQueueSize := by
  unfold enqueue
  split <;> rfl

theorem maxQueueSize_visit (visit_impl : strategy V D E O) (d : D) (s : proc_node V) :
    (s.visit visit_impl d).2.2.m_maxQueueSize = s.m_maxQueueSize := by
  unfold visit
  split
  · rfl
  · split <;> rfl

theorem length_visit_le (visit_impl : strategy V D E O) (d : D) (s : proc_node V) :
    (s.visit visit_impl d).2.2.m_inputs.length ≤ s.m_inputs.length := by
  unfold visit
  split
  · exact le_rfl
  · split
    · exact le_rfl
    · simp

end proc_node

namespace proc_node

variable {V D E O : Type}

/-- C5: in a well-formed state whose queue is not full, `enqueue<N>(component)` for a slot
`N < CARDINALITY` returns true, stores the component in slot `N` of the tuple at position
`m_numInputs[N]` (a value-initialised tuple pushed at the back when that position is the size
of the queue), and adds one to `m_numInputs[N]`; the other slots of that tuple, the other
tuples, the other counters and `m_maxQueueSize` keep their values, and the queue grows by one
tuple at most. -/
theorem enqueue_spec (dflt : List V) (s : proc_node V) (N : Nat) (component : V)
    (hwf : s.WF dflt.length) (hN : N < dflt.length)
    (hcap : s.m_maxQueueSize = 0 ∨ s.m_inputs.length < s.m_maxQueueSize) :
    ∃ NUM_INPUTS tuple,
      s.m_numInputs[N]? = some NUM_INPUTS ∧
      (if s.m_inputs.length = NUM_INPUTS then some dflt else s.m_inputs[NUM_INPUTS]?)
        = some tuple ∧
      (s.enqueue dflt N component).1 = true ∧
      (s.enqueue dflt N component).2.m_inputs.length
        = (if s.m_inputs.length = NUM_INPUTS then s.m_inputs.length + 1
            else s.m_inputs.length) ∧
      (s.enqueue dflt N component).2.m_inputs[NUM_INPUTS]? = some (tuple.set N component) ∧
      (tuple.set N component)[N]? = some component ∧
      (∀ M, M ≠ N → (tuple.set N component)[M]? = tuple[M]?) ∧
      (∀ k, k ≠ NUM_INPUTS → (s.enqueue dflt N component).2.m_inputs[k]? = s.m_inputs[k]?) ∧
      (s.enqueue dflt N component).2.m_numInputs[N]? = some (NUM_INPUTS + 1) ∧
      (∀ M, M ≠ N → (s.enqueue dflt N component).2.m_numInputs[M]? = s.m_numInputs[M]?) ∧
      (s.enqueue dflt N component).2.m_numInputs.length = s.m_numInputs.length ∧
      (s.enqueue dflt N component).2.m_maxQueueSize = s.m_maxQueueSize ∧
      s.m_inputs.length ≤ (s.enqueue dflt N component).2.m_inputs.length ∧
      (s.enqueue dflt N component).2.m_inputs.length ≤ s.m_inputs.length + 1 := by
  have hNc : N < s.m_numInputs.length := by rw [hwf.counters]; exact hN
  have hp : s.m_numInputs[N] ≤ s.m_inputs.length := hwf.in_range _ (List.getElem_mem hNc)
  have hget : s.m_numInputs[N]? = some s.m_numInputs[N] := List.getElem?_eq_getElem hNc
  have hgetD : s.m_numInputs.getD N 0 = s.m_numInputs[N] := List.getD_eq_getElem _ _ hNc
  have hmax := hwf.max_size
  rw [enqueue_of_not_full dflt s N component hcap, hgetD]
  by_cases hlen : s.m_inputs.length = s.m_numInputs[N]
  · -- a new tuple is pushed at the back
    refine ⟨s.m_numInputs[N], dflt, hget, by simp [hlen], rfl, ?_, ?_, ?_, ?_, ?_, ?_, ?_, ?_,
      rfl, ?_, ?_⟩
    · simp [hlen]
    · simp only [if_pos hlen, List.getElem?_modify_eq]
      rw [← hlen]
      simp
    · simp [List.getElem?_set, hN]
    · intro M hM
      simp [List.getElem?_set, Ne.symm hM]
    · intro k hk
      simp only [hlen, if_true]
      rw [List.getElem?_modify_ne _ _ (Ne.symm hk)]
      rcases Nat.lt_or_gt_of_ne hk with h | h
      · rw [List.getElem?_append_left (by omega)]
      · rw [List.getElem?_eq_none (by simp; omega), List.getElem?_eq_none (by omega)]
    · simp only [List.getElem?_modify_eq, hget, Option.map_eq_map, Option.map_some']
      rw [size_t_incr_eq (by omega)]
    · intro M hM
      exact List.getElem?_modify_ne _ _ (Ne.symm hM)
    · simp
    · simp [hlen]
    · simp [hlen]
  · -- the tuple is in the queue already
    have hlt : s.m_numInputs[N] < s.m_inputs.length := by omega
    refine ⟨s.m_numInputs[N], s.m_inputs[s.m_numInputs[N]], hget, ?_, rfl, ?_, ?_, ?_, ?_, ?_,
      ?_, ?_, ?_, rfl, ?_, ?_⟩
    · simp [hlen, List.getElem?_eq_getElem hlt]
    · simp [hlen]
    · simp [hlen, List.getElem?_modify_eq, List.getElem?_eq_getElem hlt]
    · have : (s.m_inputs[s.m_numInputs[N]]).length = dflt.length :=
        hwf.tuples _ (List.getElem_mem hlt)
      simp [List.getElem?_set, this, hN]
    · intro M hM
      simp [List.getElem?_set, Ne.symm hM]
    · intro k hk
      simp only [hlen, if_false]
      exact List.getElem?_modify_ne _ _ (Ne.symm hk)
    · simp only [List.getElem?_modify_eq, hget, Option.map_eq_map, Option.map_some']
      rw [size_t_incr_eq (by omega)]
    · intro M hM
      exact List.getElem?_modify_ne _ _ (Ne.symm hM)
    · simp
    · simp [hlen]
    · simp [hlen]

end proc_node

/-- C5 at the fourth `enqueue` of `proc_node_tests`: `enqueue<2>("howdy")` on the node that
holds `(1, 'x', "")` and `(0, 'y', "")` completes the front tuple. -/
theorem proc_node.enqueue_spec_witness :
    (node_after_three.enqueue vector_t_default 2 (.string "howdy")).1 = true ∧
      (node_after_three.enqueue vector_t_default 2 (.string "howdy")).2.m_inputs[0]?
        = some [.int 1, .char 'x', .string "howdy"] ∧
      (node_after_three.enqueue vector_t_default 2 (.string "howdy")).2.m_numInputs[2]?
        = some 1 := by
  obtain ⟨NUM_INPUTS, tuple, h1, h2, h3, -, h5, -, -, -, h9, -⟩ :=
    proc_node.enqueue_spec vector_t_default node_after_three 2 (.string "howdy")
      ⟨by decide, by decide, by decide, by decide⟩ (by decide) (Or.inl rfl)
  have hp : NUM_INPUTS = 0 := by
    have : node_after_three.m_numInputs[2]? = some 0 := by decide
    rw [this] at h1
    exact (Option.some.inj h1).symm
  subst hp
  have ht : tuple = [.int 1, .char 'x', .string ""] := by
    have : (if node_after_three.m_inputs.length = 0 then some vector_t_default
        else node_after_three.m_inputs[0]?) = some [.int 1, .char 'x', .string ""] := by decide
    rw [this] at h2
    exact (Option.some.inj h2).symm
  subst ht
  exact ⟨h3, h5, h9⟩

namespace proc_node

variable {V D E O : Type}

/-- C6: on a queue with a capacity `m_maxQueueSize > 0` that holds at least that many tuples,
`enqueue<N>(component)` returns false and changes nothing, for every slot and every
component; so does the `enqueue` of `shared_proc_node` called with `block = false`. -/
theorem enqueue_full_noop (dflt : List V) (s : proc_node V) (N : Nat) (component : V)
    (hC : 0 < s.m_maxQueueSize) (hfull : s.m_maxQueueSize ≤ s.m_inputs.length) :
    s.enqueue dflt N component = (false, s) ∧
      shared_proc_node.enqueue dflt s N component false = some (false, s) := by
  have h := enqueue_of_full dflt s N component (Nat.pos_iff_ne_zero.mp hC) hfull
  exact ⟨h, by simp [shared_proc_node.enqueue, h]⟩

/-- C3: `visit()` throws "proc_node not ready" exactly when `is_ready()` is false; then the
strategy has not run (the derived object is what it was, whatever the strategy) and the node
is what it was. The same holds for the `visit()` of `shared_proc_node`. -/
theorem visit_not_ready_iff (visit_impl : strategy V D E O) (d : D) (s : proc_node V) :
    ((s.visit visit_impl d).1 = .thrown .not_ready ↔ s.is_ready = false) ∧
      (s.is_ready = false → s.visit visit_impl d = (.thrown .not_ready, d, s)) ∧
      ((shared_proc_node.visit visit_impl d s).1 = .thrown .not_ready
        ↔ shared_proc_node.is_ready s = false) ∧
      (shared_proc_node.is_ready s = false →
        shared_proc_node.visit visit_impl d s = (.thrown .not_ready, d, s)) := by
  have key : (s.visit visit_impl d).1 = .thrown .not_ready ↔ s.is_ready = false := by
    constructor
    · intro h
      by_contra hr
      rw [Bool.not_eq_false] at hr
      rcases hv : visit_impl d s.m_inputs with ⟨r, d'⟩
      cases r with
      | returned output => rw [visit_of_returned visit_impl d d' s output hr hv] at h; cases h
      | thrown e => rw [visit_of_thrown visit_impl d d' s e hr hv] at h; cases h
    · intro h
      rw [visit_of_not_ready visit_impl d s h]
  exact ⟨key, visit_of_not_ready visit_impl d s, key, visit_of_not_ready visit_impl d s⟩

/-- C4: in a well-formed state with `is_ready()` true, when the strategy returns, `visit()`
returns what the strategy computed on the queue whose front is the front tuple, removes that
front tuple and no other, takes one from every counter without wrapping below zero, and keeps
`m_maxQueueSize`; the `visit()` of `shared_proc_node` does the same. -/
theorem visit_spec (visit_impl : strategy V D E O) (d d' : D) (s : proc_node V) (output : O)
    (CARDINALITY : Nat) (hwf : s.WF CARDINALITY) (hN : 0 < CARDINALITY)
    (hready : s.is_ready = true)
    (hv : visit_impl d s.m_inputs = (.returned output, d')) :
    ∃ front rest,
      s.m_inputs = front :: rest ∧
      (s.visit visit_impl d).1 = .returned output ∧
      (s.visit visit_impl d).2.1 = d' ∧
      (s.visit visit_impl d).2.2.m_inputs = rest ∧
      (s.visit visit_impl d).2.2.m_inputs.length + 1 = s.m_inputs.length ∧
      (s.visit visit_impl d).2.2.m_numInputs.length = s.m_numInputs.length ∧
      (∀ n, n < CARDINALITY → ∃ c, s.m_numInputs[n]? = some (c + 1) ∧
        (s.visit visit_impl d).2.2.m_numInputs[n]? = some c) ∧
      (s.visit visit_impl d).2.2.m_maxQueueSize = s.m_maxQueueSize ∧
      shared_proc_node.visit visit_impl d s = s.visit visit_impl d := by
  have hne : ∀ n ∈ s.m_numInputs, n ≠ 0 := (is_ready_iff_forall s).mp hready
  have h0 : 0 < s.m_numInputs.length := by rw [hwf.counters]; exact hN
  have hpos : 0 < s.m_inputs.length := by
    have h1 := hwf.in_range _ (List.getElem_mem h0)
    have h2 := hne _ (List.getElem_mem h0)
    omega
  obtain ⟨front, rest, hfr⟩ : ∃ front rest, s.m_inputs = front :: rest := by
    cases hq : s.m_inputs with
    | nil => rw [hq] at hpos; exact absurd hpos (by simp)
    | cons a l => exact ⟨a, l, rfl⟩
  rw [visit_of_returned visit_impl d d' s output hready hv]
  refine ⟨front, rest, hfr, rfl, rfl, by simp [hfr], by simp [hfr], by simp, ?_, rfl, ?_⟩
  · intro n hn
    have hnc : n < s.m_numInputs.length := by rw [hwf.counters]; exact hn
    have h1 := hwf.in_range _ (List.getElem_mem hnc)
    have h2 := hne _ (List.getElem_mem hnc)
    have h3 := hwf.max_size
    refine ⟨s.m_numInputs[n] - 1, ?_, ?_⟩
    · rw [List.getElem?_eq_getElem hnc]
      congr 1
      omega
    · simp only [List.getElem?_map, List.getElem?_eq_getElem hnc, Option.map_some']
      rw [size_t_decr_eq h2 (by omega)]
  · simp [shared_proc_node.visit, visit_of_returned visit_impl d d' s output hready hv]

end proc_node

/-! ## Lemmas on sequences of calls -/

namespace trace

variable {V D E O : Type}

theorem run_concat (dflt : List V) (visit_impl : strategy V D E O) (d : D) (maxQueueSize : Nat)
    (cs : List (call V)) (c : call V) :
    run dflt visit_impl d maxQueueSize (cs ++ [c])
      = step dflt visit_impl (run dflt visit_impl d maxQueueSize cs) c := by
  simp [run, List.foldl_append]

theorem step_visit_node (dflt : List V) (visit_impl : strategy V D E O) (t : trace V D O) :
    (step dflt visit_impl t .visit).node = (t.node.visit visit_impl t.derived).2.2 := by
  simp only [step]
  split <;> rename_i h <;> simp [h]

/-- A `visit()` on a node that is not ready leaves the trace as it is. -/
theorem step_visit_of_not_ready (dflt : List V) (visit_impl : strategy V D E O)
    (t : trace V D O) (h : t.node.is_ready = false) :
    step dflt visit_impl t .visit = t := by
  simp [step, proc_node.visit_of_not_ready visit_impl t.derived t.node h]

theorem step_visit_of_returned (dflt : List V) (visit_impl : strategy V D E O)
    (t : trace V D O) (output : O) (d' : D) (h : t.node.is_ready = true)
    (hv : visit_impl t.derived t.node.m_inputs = (.returned output, d')) :
    step dflt visit_impl t .visit =
      { node := { t.node with
          m_inputs := t.node.m_inputs.tail, m_numInputs := t.node.m_numInputs.map size_t_decr }
        derived := d'
        outputs := t.outputs ++ [output] } := by
  simp [step, proc_node.visit_of_returned visit_impl t.derived d' t.node output h hv]

theorem step_visit_of_thrown (dflt : List V) (visit_impl : strategy V D E O)
    (t : trace V D O) (e : E) (d' : D) (h : t.node.is_ready = true)
    (hv : visit_impl t.derived t.node.m_inputs = (.thrown e, d')) :
    step dflt visit_impl t .visit = { node := t.node, derived := d', outputs := t.outputs } := by
  simp [step, proc_node.visit_of_thrown visit_impl t.derived d' t.node e h hv]

end trace

theorem enqueued_append {V : Type} (N : Nat) (cs cs' : List (call V)) :
    enqueued N (cs ++ cs') = enqueued N cs ++ enqueued N cs' := by
  induction cs with
  | nil => rfl
  | cons c cs ih =>
    cases c with
    | enqueue M component =>
      by_cases h : M = N <;> simp [enqueued, h, ih]
    | visit => simpa [enqueued] using ih

theorem length_enqueued_le {V : Type} (N : Nat) (cs : List (call V)) :
    (enqueued N cs).length ≤ cs.length := by
  induction cs with
  | nil => simp [enqueued]
  | cons c cs ih =>
    cases c with
    | enqueue M component =>
      by_cases h : M = N <;> simp [enqueued, h] <;> omega
    | visit => simp [enqueued]; omega

theorem slots_ok_concat {V : Type} (CARDINALITY : Nat) (cs : List (call V)) (c : call V)
    (h : slots_ok CARDINALITY (cs ++ [c]) = true) :
    slots_ok CARDINALITY cs = true ∧
      ∀ N component, c = .enqueue N component → N < CARDINALITY := by
  simp only [slots_ok, List.all_append, Bool.and_eq_true, List.all_cons, List.all_nil,
    Bool.and_true] at h
  refine ⟨h.1, ?_⟩
  intro N component hc
  subst hc
  simpa using h.2

/-! ## Well-formed states -/

namespace proc_node

variable {V D E O : Type}

theorem WF_ctor (CARDINALITY maxQueueSize : Nat) :
    (ctor CARDINALITY maxQueueSize : proc_node V).WF CARDINALITY :=
  ⟨by simp [ctor], by simp [ctor], by simp [ctor], by simp [ctor, SIZE_T_MOD]⟩

/-- An `enqueue<N>` for a slot of the tuple keeps the state well formed, as long as the deque
can take one more tuple. -/
theorem WF_enqueue (dflt : List V) (s : proc_node V) (N : Nat) (component : V)
    (hwf : s.WF dflt.length) (hN : N < dflt.length)
    (hmax : s.m_inputs.length + 2 < SIZE_T_MOD) :
    (s.enqueue dflt N component).2.WF dflt.length := by
  by_cases hfull : s.m_maxQueueSize ≠ 0 ∧ s.m_maxQueueSize ≤ s.m_inputs.length
  · rw [enqueue_of_full dflt s N component hfull.1 hfull.2]
    exact hwf
  · have hcap : s.m_maxQueueSize = 0 ∨ s.m_inputs.length < s.m_maxQueueSize := by
      by_cases h0 : s.m_maxQueueSize = 0
      · exact Or.inl h0
      · exact Or.inr (by
          by_contra h
          exact hfull ⟨h0, by omega⟩)
    have hNc : N < s.m_numInputs.length := by rw [hwf.counters]; exact hN
    have hp : s.m_numInputs[N] ≤ s.m_inputs.length := hwf.in_range _ (List.getElem_mem hNc)
    have hgetD : s.m_numInputs.getD N 0 = s.m_numInputs[N] := List.getD_eq_getElem _ _ hNc
    rw [enqueue_of_not_full dflt s N component hcap, hgetD]
    have hlen : (List.modify (fun tuple => tuple.set N component) s.m_numInputs[N]
        (if s.m_inputs.length = s.m_numInputs[N] then s.m_inputs ++ [dflt]
          else s.m_inputs)).length
        = if s.m_inputs.length = s.m_numInputs[N] then s.m_inputs.length + 1
          else s.m_inputs.length := by
      rw [List.length_modify]
      split <;> simp
    refine ⟨by simp [hwf.counters], ?_, ?_, ?_⟩
    · intro t ht
      have hq : ∀ r ∈ (if s.m_inputs.length = s.m_numInputs[N] then s.m_inputs ++ [dflt]
          else s.m_inputs), r.length = dflt.length := by
        intro r hr
        split at hr
        · rw [List.mem_append, List.mem_singleton] at hr
          rcases hr with hr | hr
          · exact hwf.tuples r hr
          · rw [hr]
        · exact hwf.tuples r hr
      rcases mem_modify _ _ _ _ ht with h | ⟨b, hb1, rfl⟩
      · exact hq t h
      · rw [List.length_set]
        exact hq b hb1
    · intro n hn
      simp only [] at hn ⊢
      rw [hlen]
      obtain ⟨k, hk, rfl⟩ := List.mem_iff_getElem.mp hn
      rw [List.getElem_modify]
      rw [List.length_modify] at hk
      have hk' := hwf.in_range _ (List.getElem_mem hk)
      by_cases hNk : N = k
      · subst hNk
        simp only [if_true]
        rw [size_t_incr_eq (by omega)]
        split <;> omega
      · simp only [hNk, if_false]
        split <;> omega
    · simp only []
      rw [hlen]
      split <;> omega

/-- A `visit()` keeps the state well formed. -/
theorem WF_visit (visit_impl : strategy V D E O) (d : D) (s : proc_node V)
    (CARDINALITY : Nat) (hwf : s.WF CARDINALITY) :
    (s.visit visit_impl d).2.2.WF CARDINALITY := by
  by_cases hready : s.is_ready = true
  · rcases hv : visit_impl d s.m_inputs with ⟨r, d'⟩
    cases r with
    | thrown e =>
      rw [visit_of_thrown visit_impl d d' s e hready hv]
      exact hwf
    | returned output =>
      rw [visit_of_returned visit_impl d d' s output hready hv]
      have hmax := hwf.max_size
      refine ⟨by simp [hwf.counters], ?_, ?_, by simp; omega⟩
      · intro t ht
        exact hwf.tuples t (List.mem_of_mem_tail ht)
      · intro n hn
        simp only [List.mem_map] at hn
        obtain ⟨c, hc, rfl⟩ := hn
        have h1 := hwf.in_range c hc
        have h2 := (is_ready_iff_forall s).mp hready c hc
        rw [size_t_decr_eq h2 (by omega)]
        simp
        omega
  · rw [Bool.not_eq_true] at hready
    rw [visit_of_not_ready visit_impl d s hready]
    exact hwf

end proc_node

/-- The states brought about by fewer than `2 ^ 64` calls on a node as constructed are well
formed, whatever the capacity and the strategy. -/
theorem trace.WF_run {V D E O : Type} (dflt : List V) (visit_impl : strategy V D E O) (d : D)
    (maxQueueSize : Nat) (cs : List (call V)) (hs : slots_ok dflt.length cs = true)
    (hb : cs.length + 1 < SIZE_T_MOD) :
    (trace.run dflt visit_impl d maxQueueSize cs).node.WF dflt.length ∧
      (trace.run dflt visit_impl d maxQueueSize cs).node.m_inputs.length ≤ cs.length := by
  induction cs using List.reverseRecOn with
  | nil => exact ⟨proc_node.WF_ctor _ _, by simp [trace.run, proc_node.ctor]⟩
  | append_singleton cs c ih =>
    obtain ⟨hs', hc⟩ := slots_ok_concat _ _ _ hs
    have hcs : (cs ++ [c]).length = cs.length + 1 := by simp
    rw [hcs] at hb ⊢
    obtain ⟨hwf, hlen⟩ := ih hs' (by omega)
    rw [trace.run_concat]
    cases c with
    | enqueue N component =>
      simp only [trace.step]
      refine ⟨proc_node.WF_enqueue dflt _ N component hwf (hc N component rfl) (by omega), ?_⟩
      have := (proc_node.length_enqueue dflt
        (trace.run dflt visit_impl d maxQueueSize cs).node N component).2
      omega
    | visit =>
      rw [trace.step_visit_node]
      refine ⟨proc_node.WF_visit visit_impl _ _ _ hwf, ?_⟩
      have := proc_node.length_visit_le visit_impl
        (trace.run dflt visit_impl d maxQueueSize cs).derived
        (trace.run dflt visit_impl d maxQueueSize cs).node
      omega

/-- C7: a node constructed with a capacity `C > 0`, on which `enqueue` and `visit` are called
in any order and with any outcome, never holds more than `C` tuples, and keeps its capacity. -/
theorem trace.capacity_invariant {V D E O : Type} (dflt : List V)
    (visit_impl : strategy V D E O) (d : D) (C : Nat) (cs : List (call V)) (hC : 0 < C) :
    (trace.run dflt visit_impl d C cs).node.m_inputs.length ≤ C ∧
      (trace.run dflt visit_impl d C cs).node.m_maxQueueSize = C := by
  induction cs using List.reverseRecOn with
  | nil => simp [trace.run, proc_node.ctor]
  | append_singleton cs c ih =>
    rw [trace.run_concat]
    obtain ⟨hlen, hcap⟩ := ih
    cases c with
    | enqueue N component =>
      simp only [trace.step]
      refine ⟨?_, by rw [proc_node.maxQueueSize_enqueue, hcap]⟩
      by_cases hfull : C ≤ (trace.run dflt visit_impl d C cs).node.m_inputs.length
      · rw [proc_node.enqueue_of_full dflt _ N component (by omega) (by omega)]
        exact hlen
      · have := (proc_node.length_enqueue dflt
          (trace.run dflt visit_impl d C cs).node N component).2
        omega
    | visit =>
      rw [trace.step_visit_node]
      refine ⟨?_, by rw [proc_node.maxQueueSize_visit, hcap]⟩
      exact le_trans (proc_node.length_visit_le _ _ _) hlen

/-- On a node without a capacity, every counter is the number of values enqueued to its slot
less the number of calls of `visit()` that returned. -/
theorem trace.counters_invariant {V D E O : Type} (dflt : List V)
    (visit_impl : strategy V D E O) (d : D) (cs : List (call V))
    (hs : slots_ok dflt.length cs = true) (hb : cs.length + 1 < SIZE_T_MOD) :
    (trace.run dflt visit_impl d 0 cs).node.m_maxQueueSize = 0 ∧
      (trace.run dflt visit_impl d 0 cs).node.m_numInputs.length = dflt.length ∧
      ∀ N, N < dflt.length → ∃ c,
        (trace.run dflt visit_impl d 0 cs).node.m_numInputs[N]? = some c ∧
        c + (trace.run dflt visit_impl d 0 cs).outputs.length = (enqueued N cs).length := by
  induction cs using List.reverseRecOn with
  | nil =>
    refine ⟨rfl, by simp [trace.run, proc_node.ctor], ?_⟩
    intro N hN
    exact ⟨0, by simp [trace.run, proc_node.ctor, List.getElem?_replicate, hN],
      by simp [trace.run, enqueued]⟩
  | append_singleton cs c ih =>
    obtain ⟨hs', hc⟩ := slots_ok_concat _ _ _ hs
    have hb' : cs.length + 1 < SIZE_T_MOD := by
      rw [List.length_append] at hb
      simp at hb
      omega
    obtain ⟨hcap, hlen, hcount⟩ := ih hs' hb'
    rw [trace.run_concat]
    generalize trace.run dflt visit_impl d 0 cs = t at hcap hlen hcount
    cases c with
    | enqueue M component =>
      have hM : M < dflt.length := hc M component rfl
      simp only [trace.step]
      rw [proc_node.enqueue_of_not_full dflt t.node M component (Or.inl hcap)]
      refine ⟨hcap, by simp [hlen], ?_⟩
      intro N hN
      obtain ⟨c, h1, h2⟩ := hcount N hN
      by_cases hMN : M = N
      · subst hMN
        refine ⟨c + 1, ?_, ?_⟩
        · simp only [List.getElem?_modify_eq, h1, Option.map_eq_map, Option.map_some']
          have := length_enqueued_le M cs
          rw [size_t_incr_eq (by omega)]
        · simp [enqueued_append, enqueued]
          omega
      · refine ⟨c, ?_, ?_⟩
        · simp only []
          rw [List.getElem?_modify_ne _ _ hMN]
          exact h1
        · simp [enqueued_append, enqueued, hMN]
          exact h2
    | visit =>
      have henq : ∀ N, enqueued N (cs ++ [call.visit]) = enqueued N cs := by
        intro N
        simp [enqueued_append, enqueued]
      simp only [henq]
      by_cases hready : t.node.is_ready = true
      · rcases hv : visit_impl t.derived t.node.m_inputs with ⟨r, d'⟩
        cases r with
        | returned output =>
          rw [trace.step_visit_of_returned dflt visit_impl t output d' hready hv]
          refine ⟨hcap, by simp [hlen], ?_⟩
          intro N hN
          obtain ⟨c, h1, h2⟩ := hcount N hN
          have hne : c ≠ 0 :=
            (proc_node.is_ready_iff_forall t.node).mp hready c (List.getElem?_mem h1)
          have := length_enqueued_le N cs
          refine ⟨c - 1, ?_, ?_⟩
          · simp only [List.getElem?_map, h1, Option.map_some']
            rw [size_t_decr_eq hne (by omega)]
          · simp
            omega
        | thrown e =>
          rw [trace.step_visit_of_thrown dflt visit_impl t e d' hready hv]
          exact ⟨hcap, hlen, hcount⟩
      · rw [Bool.not_eq_true] at hready
        rw [trace.step_visit_of_not_ready dflt visit_impl t hready]
        exact ⟨hcap, hlen, hcount⟩

/-- C2: on a node with at least one slot and no capacity, after any calls of `enqueue` and
`visit` (fewer than `2 ^ 64` of them, which a deque cannot outgrow), `is_ready()` is true
exactly when every slot has been enqueued more often than `visit()` has returned, which is
when every counter is at least one; as long as one slot has been enqueued only as often as
`visit()` has returned, `is_ready()` is false, whatever has been enqueued to the other
slots. -/
theorem trace.is_ready_iff_enqueued {V D E O : Type} (dflt : List V)
    (visit_impl : strategy V D E O) (d : D) (cs : List (call V))
    (_hN : 0 < dflt.length) (hs : slots_ok dflt.length cs = true)
    (hb : cs.length + 1 < SIZE_T_MOD) :
    ((trace.run dflt visit_impl d 0 cs).node.is_ready = true ↔
        ∀ N, N < dflt.length →
          (trace.run dflt visit_impl d 0 cs).outputs.length < (enqueued N cs).length) ∧
      ((trace.run dflt visit_impl d 0 cs).node.is_ready = true ↔
        ∀ N, N < dflt.length →
          1 ≤ (trace.run dflt visit_impl d 0 cs).node.m_numInputs.getD N 0) ∧
      (∀ N, N < dflt.length →
        (enqueued N cs).length = (trace.run dflt visit_impl d 0 cs).outputs.length →
          (trace.run dflt visit_impl d 0 cs).node.is_ready = false) := by
  obtain ⟨-, hlen, hcount⟩ := trace.counters_invariant dflt visit_impl d cs hs hb
  generalize trace.run dflt visit_impl d 0 cs = t at hlen hcount
  have h1 : t.node.is_ready = true ↔
      ∀ N, N < dflt.length → t.outputs.length < (enqueued N cs).length := by
    rw [proc_node.is_ready_iff_forall]
    constructor
    · intro h N hN
      obtain ⟨c, hc1, hc2⟩ := hcount N hN
      have := h c (List.getElem?_mem hc1)
      omega
    · intro h n hn
      obtain ⟨N, hN, rfl⟩ := List.mem_iff_getElem.mp hn
      obtain ⟨c, hc1, hc2⟩ := hcount N (hlen ▸ hN)
      rw [List.getElem?_eq_getElem hN] at hc1
      have := h N (hlen ▸ hN)
      have : t.node.m_numInputs[N] = c := Option.some.inj hc1
      omega
  have h2 : ∀ N, N < dflt.length →
      (t.node.m_numInputs.getD N 0 + t.outputs.length = (enqueued N cs).length) := by
    intro N hN
    obtain ⟨c, hc1, hc2⟩ := hcount N hN
    rw [List.getD_eq_getElem?_getD, hc1]
    exact hc2
  refine ⟨h1, ?_, ?_⟩
  · rw [h1]
    constructor
    · intro h N hN
      have := h N hN
      have := h2 N hN
      omega
    · intro h N hN
      have := h N hN
      have := h2 N hN
      omega
  · intro N hN heq
    rw [← Bool.not_eq_true, h1]
    intro h
    have := h N hN
    omega

/-- On a node without a capacity whose strategy returns the front tuple: the values enqueued
to a slot are, in order, the values which that slot has in the tuples returned so far and
then in the first `m_numInputs[N]` tuples of the queue. -/
theorem trace.tuples_invariant {V : Type} (dflt : List V) (cs : List (call V))
    (hs : slots_ok dflt.length cs = true) (hb : cs.length + 1 < SIZE_T_MOD) :
    (trace.run dflt (my_proc_node.visit_impl dflt) () 0 cs).node.m_maxQueueSize = 0 ∧
      (trace.run dflt (my_proc_node.visit_impl dflt) () 0 cs).node.m_numInputs.length
        = dflt.length ∧
      (∀ t ∈ (trace.run dflt (my_proc_node.visit_impl dflt) () 0 cs).node.m_inputs,
        t.length = dflt.length) ∧
      (trace.run dflt (my_proc_node.visit_impl dflt) () 0 cs).node.m_inputs.length
        ≤ cs.length ∧
      ∀ N, N < dflt.length → ∃ c,
        (trace.run dflt (my_proc_node.visit_impl dflt) () 0 cs).node.m_numInputs[N]? = some c ∧
        c ≤ (trace.run dflt (my_proc_node.visit_impl dflt) () 0 cs).node.m_inputs.length ∧
        (enqueued N cs).map some =
          ((trace.run dflt (my_proc_node.visit_impl dflt) () 0 cs).outputs ++
            (trace.run dflt (my_proc_node.visit_impl dflt) () 0 cs).node.m_inputs.take c).map
              (fun t => t[N]?) := by
  induction cs using List.reverseRecOn with
  | nil =>
    refine ⟨rfl, by simp [trace.run, proc_node.ctor], by simp [trace.run, proc_node.ctor],
      by simp [trace.run, proc_node.ctor], ?_⟩
    intro N hN
    exact ⟨0, by simp [trace.run, proc_node.ctor, List.getElem?_replicate, hN],
      by simp, by simp [trace.run, enqueued]⟩
  | append_singleton cs c ih =>
    obtain ⟨hs', hc⟩ := slots_ok_concat _ _ _ hs
    have hb' : cs.length + 1 < SIZE_T_MOD := by
      rw [List.length_append] at hb
      simp at hb
      omega
    have hcs : (cs ++ [c]).length = cs.length + 1 := by simp
    obtain ⟨hcap, hlen, htup, hsize, hfifo⟩ := ih hs' hb'
    rw [trace.run_concat, hcs]
    generalize trace.run dflt (my_proc_node.visit_impl dflt) () 0 cs = t
      at hcap hlen htup hsize hfifo
    cases c with
    | enqueue M component =>
      have hM : M < dflt.length := hc M component rfl
      obtain ⟨p, hp1, hp2, hp3⟩ := hfifo M hM
      have hgetD : t.node.m_numInputs.getD M 0 = p := by
        rw [List.getD_eq_getElem?_getD, hp1]
        rfl
      simp only [trace.step]
      rw [proc_node.enqueue_of_not_full dflt t.node M component (Or.inl hcap), hgetD]
      -- the queue after the tuple has been pushed, if one is
      obtain ⟨q, hq, hqlen, hqge, hqp, hqtake, hqtup⟩ : ∃ q,
          (if t.node.m_inputs.length = p then t.node.m_inputs ++ [dflt] else t.node.m_inputs)
            = q ∧ q.length ≤ t.node.m_inputs.length + 1 ∧
          t.node.m_inputs.length ≤ q.length ∧ p < q.length ∧
          (∀ c, c ≤ t.node.m_inputs.length → q.take c = t.node.m_inputs.take c) ∧
          (∀ r ∈ q, r.length = dflt.length) := by
        by_cases h : t.node.m_inputs.length = p
        · refine ⟨_, rfl, by simp [h], by simp [h], by simp [h], ?_, ?_⟩
          · intro c hc
            rw [if_pos h, List.take_append_of_le_length hc]
          · intro r hr
            rw [if_pos h, List.mem_append, List.mem_singleton] at hr
            rcases hr with hr | hr
            · exact htup r hr
            · rw [hr]
        · refine ⟨_, rfl, by simp [h], by simp [h], by simp [h]; omega, ?_, ?_⟩
          · intro c _
            rw [if_neg h]
          · intro r hr
            rw [if_neg h] at hr
            exact htup r hr
      rw [hq]
      refine ⟨hcap, by simp [hlen], ?_, by simp only [List.length_modify]; omega, ?_⟩
      · intro r hr
        rcases mem_modify _ _ _ _ hr with h | ⟨b, hb1, rfl⟩
        · exact hqtup r h
        · rw [List.length_set]
          exact hqtup b hb1
      · intro N hN
        by_cases hMN : M = N
        · subst hMN
          refine ⟨p + 1, ?_, by simp only [List.length_modify]; omega, ?_⟩
          · simp only [List.getElem?_modify_eq, hp1, Option.map_eq_map, Option.map_some']
            rw [size_t_incr_eq (by omega)]
          · simp only []
            rw [take_succ_modify _ _ _ hqp, hqtake p hp2, ← List.append_assoc, List.map_append,
              ← hp3, enqueued_append, List.map_append]
            congr 1
            have : (q[p]).length = dflt.length := hqtup _ (List.getElem_mem hqp)
            simp [enqueued, List.getElem?_set, this, hM]
        · obtain ⟨c, hc1, hc2, hc3⟩ := hfifo N hN
          refine ⟨c, ?_, by simp only [List.length_modify]; omega, ?_⟩
          · simp only []
            rw [List.getElem?_modify_ne _ _ hMN]
            exact hc1
          · simp only []
            have hmap : (List.modify (fun tuple => tuple.set M component) p q).map
                (fun t => t[N]?) = q.map (fun t => t[N]?) :=
              map_modify_of_eq _ _ (fun a => by simp [List.getElem?_set, hMN]) p q
            rw [List.map_append, List.map_take, hmap, ← List.map_take, hqtake c hc2,
              ← List.map_append, ← hc3]
            simp [enqueued_append, enqueued, hMN]
    | visit =>
      have henq : ∀ N, enqueued N (cs ++ [call.visit]) = enqueued N cs := by
        intro N
        simp [enqueued_append, enqueued]
      simp only [henq]
      by_cases hready : t.node.is_ready = true
      · rw [trace.step_visit_of_returned dflt (my_proc_node.visit_impl dflt) t
          (t.node.m_inputs.headD dflt) () hready rfl]
        refine ⟨hcap, by simp [hlen], ?_, by simp; omega, ?_⟩
        · intro r hr
          exact htup r (List.mem_of_mem_tail hr)
        · intro N hN
          obtain ⟨c, hc1, hc2, hc3⟩ := hfifo N hN
          have hne : c ≠ 0 :=
            (proc_node.is_ready_iff_forall t.node).mp hready c (List.getElem?_mem hc1)
          refine ⟨c - 1, ?_, ?_, ?_⟩
          · simp only [List.getElem?_map, hc1, Option.map_some']
            rw [size_t_decr_eq hne (by omega)]
          · simp
            omega
          · cases hq : t.node.m_inputs with
            | nil =>
              rw [hq] at hc2
              simp at hc2
              exact absurd hc2 hne
            | cons front rest =>
              rw [hq] at hc3
              obtain ⟨c', rfl⟩ : ∃ c', c = c' + 1 := ⟨c - 1, by omega⟩
              simpa using hc3
      · rw [Bool.not_eq_true] at hready
        rw [trace.step_visit_of_not_ready dflt _ t hready]
        exact ⟨hcap, hlen, htup, by omega, hfifo⟩

/-- C1: on a node with at least one slot and no capacity whose strategy returns the front
tuple, after any calls of `enqueue` and `visit` (fewer than `2 ^ 64` of them, which a deque
cannot outgrow), the `k`-th call of `visit()` that returned has returned the tuple whose slot
`N` holds the `k`-th value enqueued to slot `N`, for every slot `N`. -/
theorem trace.visit_fifo {V : Type} (dflt : List V) (cs : List (call V))
    (_hN : 0 < dflt.length) (hs : slots_ok dflt.length cs = true)
    (hb : cs.length + 1 < SIZE_T_MOD) (k : Nat) (tuple : List V)
    (hk : (trace.run dflt (my_proc_node.visit_impl dflt) () 0 cs).outputs[k]? = some tuple)
    (N : Nat) (hN : N < dflt.length) :
    ∃ v, (enqueued N cs)[k]? = some v ∧ tuple[N]? = some v := by
  obtain ⟨-, -, -, -, hfifo⟩ := trace.tuples_invariant dflt cs hs hb
  obtain ⟨c, -, -, h⟩ := hfifo N hN
  have hlt : k < (trace.run dflt (my_proc_node.visit_impl dflt) () 0 cs).outputs.length := by
    by_contra hge
    rw [List.getElem?_eq_none (by omega)] at hk
    cases hk
  have h' := congrArg (fun l => l[k]?) h
  simp only [List.getElem?_map, List.getElem?_append_left hlt, hk, Option.map_some'] at h'
  cases hv : (enqueued N cs)[k]? with
  | none => rw [hv] at h'; cases h'
  | some v =>
    rw [hv] at h'
    exact ⟨v, rfl, (Option.some.inj h').symm⟩

/-- C1 on the calls of `proc_node_tests`: the two calls of `visit()` return
`(1, 'x', "howdy")` and `(2, 'y', "pardner")`. -/
theorem trace.visit_fifo_witness :
    (trace.run vector_t_default (my_proc_node.visit_impl vector_t_default) () 0
        proc_node_tests).outputs
      = [[.int 1, .char 'x', .string "howdy"], [.int 2, .char 'y', .string "pardner"]] ∧
    ∃ v, (enqueued 1 proc_node_tests)[1]? = some v ∧
      [Val.int 2, Val.char 'y', Val.string "pardner"][1]? = some v :=
  ⟨by decide,
    trace.visit_fifo vector_t_default proc_node_tests (by decide) (by decide) (by decide) 1
      [.int 2, .char 'y', .string "pardner"] (by decide) 1 (by decide)⟩

/-- C2 on the first four calls of `proc_node_tests`: the node is not ready until slot 2 has
been enqueued, although slot 1 has been enqueued twice. -/
theorem trace.is_ready_iff_enqueued_witness :
    (trace.run vector_t_default (my_proc_node.visit_impl vector_t_default) () 0
        (proc_node_tests.take 3)).node.is_ready = false ∧
    (trace.run vector_t_default (my_proc_node.visit_impl vector_t_default) () 0
        (proc_node_tests.take 4)).node.is_ready = true :=
  ⟨(trace.is_ready_iff_enqueued vector_t_default (my_proc_node.visit_impl vector_t_default) ()
      (proc_node_tests.take 3) (by decide) (by decide) (by decide)).2.2 2 (by decide)
      (by decide),
    (trace.is_ready_iff_enqueued vector_t_default (my_proc_node.visit_impl vector_t_default) ()
      (proc_node_tests.take 4) (by decide) (by decide) (by decide)).1.mpr (by decide)⟩

/-! ## Lemmas on `active_proc_node` -/

namespace active_proc_node

variable {V D E O : Type}

/-- What an iteration of the loop does to the flags and to the thread. -/
theorem iteration_fields (visit_impl : strategy V D E O) (a : active_proc_node V D) :
    (iteration visit_impl a).m_startup = a.m_startup ∧
      (iteration visit_impl a).m_running = a.m_running ∧
      (iteration visit_impl a).m_shutdown = a.m_shutdown ∧
      ((iteration visit_impl a).m_thread = .waiting ∨
        (iteration visit_impl a).m_thread = .loop_test ∨
        (iteration visit_impl a).m_thread = .leaving) := by
  unfold iteration
  split
  · split <;> simp [interrupted, leave]
  · split <;> simp [leave]

theorem flags_ok_ctor (CARDINALITY maxQueueSize : Nat) (d : D) :
    flags_ok (ctor CARDINALITY maxQueueSize d : active_proc_node V D) := by
  simp [flags_ok, ctor, exited]

theorem flags_ok_startup (a : active_proc_node V D) (h : flags_ok a) :
    flags_ok a.startup.2 := by
  unfold startup
  split
  · simp [flags_ok, exited]
  · exact h

theorem flags_ok_run (visit_impl : strategy V D E O) (a : active_proc_node V D)
    (h : flags_ok a) : flags_ok (run visit_impl a) := by
  obtain ⟨h1, h2⟩ := h
  have hit := iteration_fields visit_impl a
  unfold run
  split
  all_goals rename_i hth
  all_goals simp only [flags_ok, exited, hth, leave, interrupted] at *
  · simpa using h1
  · split <;> simpa using h1
  · obtain ⟨e1, e2, -, e4⟩ := hit
    rw [e1, e2]
    rcases e4 with e | e | e <;> simp [e] <;> simpa using h1
  · split
    · simpa using h1
    · obtain ⟨e1, e2, -, e4⟩ := hit
      rw [e1, e2]
      rcases e4 with e | e | e <;> simp [e] <;> simpa using h1
  · simp
  · exact ⟨by simpa using h1, by simpa using h2⟩
  · exact ⟨by simpa using h1, by simpa using h2⟩

end active_proc_node

namespace active_proc_node

variable {V D E O : Type}

theorem flags_ok_signal_shutdown (a : active_proc_node V D) (h : flags_ok a) :
    flags_ok a.signal_shutdown := by
  unfold signal_shutdown interrupt
  split <;> exact h

theorem flags_ok_step (dflt : List V) (visit_impl : strategy V D E O)
    (a a' : active_proc_node V D) (hstep : step dflt visit_impl a a') (h : flags_ok a) :
    flags_ok a' := by
  cases hstep with
  | startup => exact flags_ok_startup a h
  | signal_shutdown => exact flags_ok_signal_shutdown a h
  | join hex =>
    obtain ⟨h1, h2⟩ := h
    refine ⟨by simpa [exited] using h1.mpr hex, ?_⟩
    intro hr
    have := h2 hr
    simp only [exited, Bool.or_eq_true, decide_eq_true_eq] at hex
    rcases hex with hex | hex <;> rw [hex] at this <;> simp at this
  | run => exact flags_ok_run visit_impl a h
  | enqueue => exact h
  | visit => exact h
  | maxQueueSize => exact h

theorem flags_ok_of_reachable (dflt : List V) (visit_impl : strategy V D E O)
    (maxQueueSize : Nat) (d : D) (a : active_proc_node V D)
    (h : reachable dflt visit_impl maxQueueSize d a) : flags_ok a := by
  unfold reachable at h
  induction h with
  | refl => exact flags_ok_ctor _ _ _
  | tail _ hstep ih => exact flags_ok_step dflt visit_impl _ _ hstep ih

/-- With no worker, or one that has exited, `running()` is false. -/
theorem running_of_exited (a : active_proc_node V D) (h : flags_ok a)
    (hex : a.exited = true) : a.running = false := by
  by_contra hr
  rw [Bool.not_eq_false] at hr
  have := h.2 hr
  simp only [exited, Bool.or_eq_true, decide_eq_true_eq] at hex
  rcases hex with hex | hex <;> rw [hex] at this <;> simp at this

/-- A `join()` that returns, returns with `running()` false. -/
theorem running_of_join (visit_impl : strategy V D E O) (fuel : Nat) :
    ∀ a a' : active_proc_node V D, flags_ok a → join visit_impl fuel a = some a' →
      a'.running = false := by
  induction fuel with
  | zero =>
    intro a a' h hj
    simp only [join] at hj
    split at hj
    · rename_i hex
      rw [← Option.some.inj hj]
      exact running_of_exited a h hex
    · cases hj
  | succ fuel ih =>
    intro a a' h hj
    simp only [join] at hj
    split at hj
    · rename_i hex
      rw [← Option.some.inj hj]
      exact running_of_exited a h hex
    · exact ih _ _ (flags_ok_run visit_impl a h) hj

/-- After `m_shutdown = true; m_thread.interrupt();` the worker exits within three of its
steps, so that a `join()` returns. -/
theorem join_signal_shutdown (visit_impl : strategy V D E O) (a : active_proc_node V D) :
    (join visit_impl 3 a.signal_shutdown).isSome = true := by
  rcases a with ⟨base, derived, su, ru, sh, th, ir, n⟩
  cases th
  case not_a_thread => simp [signal_shutdown, interrupt, join, exited]
  case finished => simp [signal_shutdown, interrupt, join, exited]
  case created =>
    simp [signal_shutdown, interrupt, join, exited, run, leave]
  case loop_test =>
    simp [signal_shutdown, interrupt, join, exited, run, leave]
  case leaving =>
    simp [signal_shutdown, interrupt, join, exited, run, leave]
  case waiting =>
    simp [signal_shutdown, interrupt, join, exited, run, leave, interrupted]
  case loop_body =>
    by_cases hready : shared_proc_node.is_ready base = true
    · rcases hv : shared_proc_node.visit visit_impl derived base with ⟨r, d', s⟩
      cases r with
      | returned output =>
        simp [signal_shutdown, interrupt, join, exited, run, leave, iteration, hready, hv]
      | thrown x =>
        simp [signal_shutdown, interrupt, join, exited, run, leave, iteration, hready, hv]
    · simp [signal_shutdown, interrupt, join, exited, run, leave, iteration, hready,
          interrupted]

end active_proc_node

namespace active_proc_node

variable {V D E O : Type}

theorem is_ready_ctor (CARDINALITY maxQueueSize : Nat) (h : 0 < CARDINALITY) :
    shared_proc_node.is_ready (shared_proc_node.ctor CARDINALITY maxQueueSize : proc_node V)
      = false := by
  obtain ⟨n, rfl⟩ : ∃ n, CARDINALITY = n + 1 := ⟨CARDINALITY - 1, by omega⟩
  simp [shared_proc_node.is_ready, shared_proc_node.ctor, proc_node.is_ready, proc_node.ctor,
    List.replicate_succ]

/-- The worker of a node on which nothing is enqueued and `shutdown` is not called stays in
its loop, however many steps it takes. -/
theorem run_iterate_fresh (visit_impl : strategy V D E O) (CARDINALITY maxQueueSize : Nat)
    (d : D) (h : 0 < CARDINALITY) (k : Nat) :
    ((run visit_impl)^[k] (ctor CARDINALITY maxQueueSize d).startup.2).m_startup = true ∧
      ((run visit_impl)^[k] (ctor CARDINALITY maxQueueSize d).startup.2).m_shutdown = false ∧
      ((run visit_impl)^[k] (ctor CARDINALITY maxQueueSize d).startup.2).interruption_requested
        = false ∧
      ((run visit_impl)^[k] (ctor CARDINALITY maxQueueSize d).startup.2).base
        = shared_proc_node.ctor CARDINALITY maxQueueSize ∧
      (((run visit_impl)^[k] (ctor CARDINALITY maxQueueSize d).startup.2).m_thread = .created ∨
        ((run visit_impl)^[k] (ctor CARDINALITY maxQueueSize d).startup.2).m_thread
          = .loop_test ∨
        ((run visit_impl)^[k] (ctor CARDINALITY maxQueueSize d).startup.2).m_thread
          = .loop_body ∨
        ((run visit_impl)^[k] (ctor CARDINALITY maxQueueSize d).startup.2).m_thread
          = .waiting) := by
  induction k with
  | zero => simp [startup, ctor]
  | succ k ih =>
    rw [Function.iterate_succ_apply']
    generalize (run visit_impl)^[k] (ctor CARDINALITY maxQueueSize d).startup.2 = a at ih
    obtain ⟨h1, h2, h3, h4, h5⟩ := ih
    have hnr := is_ready_ctor (V := V) CARDINALITY maxQueueSize h
    rcases h5 with h5 | h5 | h5 | h5
    · simp [run, h5, h1, h2, h3, h4]
    · simp [run, h5, h1, h2, h3, h4]
    · simp [run, h5, h1, h2, h3, h4, iteration, hnr]
    · simp [run, h5, h1, h2, h3, h4, iteration, hnr]

/-- C8: `startup()` returns true exactly when `m_startup` is false, which in a reachable state
is when no worker is alive; it then sets `m_startup`, clears `m_running` and `m_shutdown`,
and creates one worker thread. When `m_startup` is set it returns false and changes nothing.
On a fresh node the first call returns true and a second call returns false, whatever the
worker has done in between. -/
theorem startup_spec (a : active_proc_node V D) :
    (a.startup.1 = true ↔ a.m_startup = false) ∧
      (a.m_startup = false →
        a.startup.2 = { a with
          m_startup := true, m_running := false, m_shutdown := false, m_thread := .created,
          interruption_requested := false, threads_created := a.threads_created + 1 }) ∧
      (a.m_startup = true → a.startup = (false, a)) ∧
      (∀ (dflt : List V) (visit_impl : strategy V D E O) (maxQueueSize : Nat) (d : D),
        reachable dflt visit_impl maxQueueSize d a →
          (a.startup.1 = true ↔ a.exited = true)) ∧
      (∀ (CARDINALITY maxQueueSize : Nat) (d : D),
        (ctor CARDINALITY maxQueueSize d : active_proc_node V D).startup.1 = true ∧
        (ctor CARDINALITY maxQueueSize d : active_proc_node V D).startup.2.startup
          = (false, (ctor CARDINALITY maxQueueSize d).startup.2) ∧
        ∀ (visit_impl : strategy V D E O) (k : Nat), 0 < CARDINALITY →
          ((run visit_impl)^[k]
            (ctor CARDINALITY maxQueueSize d : active_proc_node V D).startup.2).startup.1
              = false) := by
  have h1 : a.startup.1 = true ↔ a.m_startup = false := by
    unfold startup
    cases a.m_startup <;> simp
  refine ⟨h1, ?_, ?_, ?_, ?_⟩
  · intro h
    simp [startup, h]
  · intro h
    simp [startup, h]
  · intro dflt visit_impl maxQueueSize d hr
    rw [h1]
    exact (flags_ok_of_reachable dflt visit_impl maxQueueSize d a hr).1
  · intro CARDINALITY maxQueueSize d
    refine ⟨by simp [startup, ctor], by simp [startup, ctor], ?_⟩
    intro visit_impl k h
    have := (run_iterate_fresh visit_impl CARDINALITY maxQueueSize d h k).1
    generalize (run visit_impl)^[k] (ctor CARDINALITY maxQueueSize d).startup.2 = b at this
    simp [startup, this]

/-- C9: `running()` is false on a node as constructed, and in every reachable state in which
the worker has exited or there is none; a `join()` that returns and a `shutdown(true, 0)` that
returns leave `running()` false, and `shutdown(true, 0)` does return once the worker has been
given three steps. -/
theorem running_false_of_exited (dflt : List V) (visit_impl : strategy V D E O)
    (maxQueueSize : Nat) (d : D) (a : active_proc_node V D)
    (ha : reachable dflt visit_impl maxQueueSize d a) :
    (ctor dflt.length maxQueueSize d : active_proc_node V D).running = false ∧
      (a.exited = true → a.running = false) ∧
      (∀ fuel a', a.join visit_impl fuel = some a' → a'.running = false) ∧
      (∀ fuel a', a.shutdown visit_impl fuel true 0 = some a' → a'.running = false) ∧
      (∃ a', a.shutdown visit_impl 3 true 0 = some a' ∧ a'.running = false) := by
  have hok := flags_ok_of_reachable dflt visit_impl maxQueueSize d a ha
  have hsh : ∀ fuel a', a.shutdown visit_impl fuel true 0 = some a' → a'.running = false := by
    intro fuel a' h
    simp only [shutdown, if_true] at h
    exact running_of_join visit_impl fuel _ a' (flags_ok_signal_shutdown a hok) h
  refine ⟨rfl, running_of_exited a hok, ?_, hsh, ?_⟩
  · intro fuel a' h
    exact running_of_join visit_impl fuel a a' hok h
  · obtain ⟨a', h⟩ := Option.isSome_iff_exists.mp (join_signal_shutdown visit_impl a)
    have h' : a.shutdown visit_impl 3 true 0 = some a' := by
      simp only [shutdown, if_true]
      exact h
    exact ⟨a', h', hsh 3 a' h'⟩

/-- C10, as the code has it: when the strategy throws in an iteration of the worker loop, the
exception is caught by the handler around the whole loop and goes no further, the tuple
stays in the queue, and the worker leaves the loop; its next step clears `m_startup` and
`m_running` and ends `run()`. -/
theorem run_strategy_fault (visit_impl : strategy V D E O) (a : active_proc_node V D) (e : E)
    (d' : D)
    (hth : a.m_thread = .loop_body ∨
      (a.m_thread = .waiting ∧ a.interruption_requested = false))
    (hready : shared_proc_node.is_ready a.base = true)
    (hv : visit_impl a.derived a.base.m_inputs = (.thrown e, d')) :
    run visit_impl a = { a with derived := d', m_thread := .leaving } ∧
      run visit_impl (run visit_impl a)
        = { a with derived := d', m_startup := false, m_running := false,
                   m_thread := .finished } := by
  have hvis : shared_proc_node.visit visit_impl a.derived a.base
      = (.thrown (.strategy_fault e), d', a.base) :=
    proc_node.visit_of_thrown visit_impl a.derived d' a.base e hready hv
  have h1 : run visit_impl a = { a with derived := d', m_thread := .leaving } := by
    rcases hth with hth | ⟨hth, hir⟩
    · simp [run, hth, iteration, hready, hvis, leave]
    · simp [run, hth, hir, iteration, hready, hvis, leave]
  refine ⟨h1, ?_⟩
  rw [h1]
  simp [run]

end active_proc_node

/-! ## The theorems at the nodes of the unit tests -/

/-- C4 at the first `visit()` of `proc_node_tests`: it returns `(1, 'x', "howdy")` and leaves
the tuple `(0, 'y', "")` with the counters `0, 1, 0`. -/
theorem proc_node.visit_spec_witness :
    ∃ front rest,
      node_after_four.m_inputs = front :: rest ∧
      (node_after_four.visit (my_proc_node.visit_impl vector_t_default) ()).1
        = .returned [.int 1, .char 'x', .string "howdy"] ∧
      (node_after_four.visit (my_proc_node.visit_impl vector_t_default) ()).2.2.m_inputs
        = rest ∧
      (node_after_four.visit (my_proc_node.visit_impl vector_t_default) ()).2.2.m_numInputs
        = [0, 1, 0] := by
  obtain ⟨front, rest, h1, h2, -, h4, -⟩ :=
    proc_node.visit_spec (my_proc_node.visit_impl vector_t_default) () () node_after_four
      [.int 1, .char 'x', .string "howdy"] 3 ⟨by decide, by decide, by decide, by decide⟩
      (by decide) (by decide) (by decide)
  exact ⟨front, rest, h1, h2, h4, by decide⟩

/-- C6 on a node of capacity one that holds the incomplete tuple `(1, _, _)`: the value `2`
for slot 0 of a second tuple is refused. -/
theorem proc_node.enqueue_full_noop_witness :
    node_full.enqueue vector_t_default 0 (.int 2) = (false, node_full) ∧
      shared_proc_node.enqueue vector_t_default node_full 0 (.int 2) false
        = some (false, node_full) :=
  proc_node.enqueue_full_noop vector_t_default node_full 0 (.int 2) (by decide) (by decide)

/-- C7 on the calls of `proc_node_tests` made on a node of capacity one. -/
theorem trace.capacity_invariant_witness :
    (trace.run vector_t_default (my_proc_node.visit_impl vector_t_default) () 1
        proc_node_tests).node.m_inputs.length ≤ 1 ∧
      (trace.run vector_t_default (my_proc_node.visit_impl vector_t_default) () 1
        proc_node_tests).node.m_maxQueueSize = 1 :=
  trace.capacity_invariant vector_t_default (my_proc_node.visit_impl vector_t_default) () 1
    proc_node_tests (by decide)

theorem node_waiting_reachable :
    active_proc_node.reachable vector_t_default (my_proc_node.visit_impl vector_t_default) 0 ()
      node_waiting :=
  (((Relation.ReflTransGen.refl.tail (active_proc_node.step.startup _)).tail
    (active_proc_node.step.run _)).tail (active_proc_node.step.run _)).tail
    (active_proc_node.step.run _)

/-- C9 on the node of `active_proc_node_thread_tests`: `shutdown(true)` called while the worker
waits returns, and `running()` is false after it. -/
theorem active_proc_node.running_false_of_exited_witness :
    node_waiting.m_thread = .waiting ∧
      ∃ a', node_waiting.shutdown (my_proc_node.visit_impl vector_t_default) 3 true 0
          = some a' ∧ a'.running = false :=
  ⟨by decide,
    (active_proc_node.running_false_of_exited vector_t_default
      (my_proc_node.visit_impl vector_t_default) 0 () node_waiting
      node_waiting_reachable).2.2.2.2⟩

theorem node_faulting_reachable :
    active_proc_node.reachable vector_t_default faulty_visit_impl 0 () node_faulting := by
  have e1 : active_proc_node.step vector_t_default faulty_visit_impl
      (active_proc_node.ctor 3 0 ()) (node_enqueued 1) :=
    active_proc_node.step.enqueue (active_proc_node.ctor 3 0 ()) 0 (.int 1) true
      (true, (node_enqueued 1).base) (by decide)
  have e2 : active_proc_node.step vector_t_default faulty_visit_impl
      (node_enqueued 1) (node_enqueued 2) :=
    active_proc_node.step.enqueue (node_enqueued 1) 1 (.char 'x') true
      (true, (node_enqueued 2).base) (by decide)
  have e3 : active_proc_node.step vector_t_default faulty_visit_impl
      (node_enqueued 2) (node_enqueued 3) :=
    active_proc_node.step.enqueue (node_enqueued 2) 1 (.char 'y') true
      (true, (node_enqueued 3).base) (by decide)
  have e4 : active_proc_node.step vector_t_default faulty_visit_impl
      (node_enqueued 3) (node_enqueued 4) :=
    active_proc_node.step.enqueue (node_enqueued 3) 2 (.string "howdy") true
      (true, (node_enqueued 4).base) (by decide)
  exact ((((((Relation.ReflTransGen.refl.tail e1).tail e2).tail e3).tail e4).tail
    (active_proc_node.step.startup _)).tail (active_proc_node.step.run _)).tail
    (active_proc_node.step.run _)

/-- C10 fails on a reachable node: the worker is in its loop and `running()` is true, the
front tuple is complete and the strategy throws; the worker then leaves the loop, and its
next step ends `run()` with `m_startup` and `m_running` cleared. -/
theorem active_proc_node.run_strategy_fault_counterexample :
    active_proc_node.reachable vector_t_default faulty_visit_impl 0 () node_faulting ∧
      node_faulting.m_thread = .loop_body ∧
      node_faulting.m_startup = true ∧
      node_faulting.running = true ∧
      shared_proc_node.is_ready node_faulting.base = true ∧
      (shared_proc_node.visit faulty_visit_impl node_faulting.derived node_faulting.base).1
        = .thrown (.strategy_fault "fault") ∧
      (active_proc_node.run faulty_visit_impl node_faulting).m_thread = .leaving ∧
      (active_proc_node.run faulty_visit_impl
        (active_proc_node.run faulty_visit_impl node_faulting)).m_thread = .finished ∧
      (active_proc_node.run faulty_visit_impl
        (active_proc_node.run faulty_visit_impl node_faulting)).m_startup = false ∧
      (active_proc_node.run faulty_visit_impl
        (active_proc_node.run faulty_visit_impl node_faulting)).running = false :=
  ⟨node_faulting_reachable, by decide, by decide, by decide, by decide, by decide, by decide,
    by decide, by decide, by decide⟩

/-- The amended C10 on the node of the counterexample. -/
theorem active_proc_node.run_strategy_fault_witness :
    active_proc_node.run faulty_visit_impl node_faulting
        = { node_faulting with m_thread := .leaving } ∧
      active_proc_node.run faulty_visit_impl
          (active_proc_node.run faulty_visit_impl node_faulting)
        = { node_faulting with
            m_startup := false, m_running := false, m_thread := .finished } :=
  active_proc_node.run_strategy_fault faulty_visit_impl node_faulting "fault" ()
    (Or.inl (by decide)) (by decide) (by decide)


/-! ## The capacity -/

/-- Calls of `enqueue` and `visit` leave the capacity as it is. -/
theorem trace.maxQueueSize_foldl {V D E O : Type} (dflt : List V)
    (visit_impl : strategy V D E O) (cs : List (call V)) (t : trace V D O) :
    (cs.foldl (trace.step dflt visit_impl) t).node.m_maxQueueSize = t.node.m_maxQueueSize := by
  induction cs generalizing t with
  | nil => rfl
  | cons c cs ih =>
    rw [List.foldl_cons, ih]
    cases c with
    | enqueue N component => exact proc_node.maxQueueSize_enqueue dflt t.node N component
    | visit =>
      rw [trace.step_visit_node]
      exact proc_node.maxQueueSize_visit visit_impl t.derived t.node

/-- An `enqueue` is refused exactly when there is a capacity and the queue has reached it. -/
theorem proc_node.enqueue_refused_iff {V : Type} (dflt : List V) (s : proc_node V) (N : Nat)
    (component : V) :
    (s.enqueue dflt N component).1 = false ↔
      0 < s.m_maxQueueSize ∧ s.m_maxQueueSize ≤ s.m_inputs.length := by
  constructor
  · intro h
    by_contra hn
    have hcap : s.m_maxQueueSize = 0 ∨ s.m_inputs.length < s.m_maxQueueSize := by omega
    rw [proc_node.enqueue_of_not_full dflt s N component hcap] at h
    cases h
  · rintro ⟨h0, h1⟩
    rw [proc_node.enqueue_of_full dflt s N component (by omega) h1]

/-- C11: `maxQueueSize(size)` changes the capacity and nothing else, for every state and every
`size`, also one below the number of tuples held: the queue and the counters are what they
were, and `maxQueueSize()` then returns `size`; so for the functions of `shared_proc_node`.
After it, whatever calls of `enqueue` and `visit` follow, the capacity is still `size` and an
`enqueue` is refused, without effect, exactly when `size > 0` and the queue holds at least
`size` tuples. -/
theorem proc_node.set_maxQueueSize_spec {V D E O : Type} (s : proc_node V) (size : Nat) :
    (s.set_maxQueueSize size).m_inputs = s.m_inputs ∧
      (s.set_maxQueueSize size).m_numInputs = s.m_numInputs ∧
      (s.set_maxQueueSize size).queueSize = s.queueSize ∧
      (s.set_maxQueueSize size).maxQueueSize = size ∧
      shared_proc_node.set_maxQueueSize s size = s.set_maxQueueSize size ∧
      shared_proc_node.maxQueueSize (shared_proc_node.set_maxQueueSize s size) = size ∧
      shared_proc_node.queueSize (shared_proc_node.set_maxQueueSize s size)
        = shared_proc_node.queueSize s ∧
      ∀ (dflt : List V) (visit_impl : strategy V D E O) (d : D) (outputs : List O)
        (cs : List (call V)) (N : Nat) (component : V),
        (cs.foldl (trace.step dflt visit_impl)
          { node := s.set_maxQueueSize size, derived := d, outputs := outputs }).node.maxQueueSize
            = size ∧
        (((cs.foldl (trace.step dflt visit_impl)
            { node := s.set_maxQueueSize size, derived := d, outputs := outputs }).node.enqueue
              dflt N component).1 = false ↔
          0 < size ∧ size ≤ (cs.foldl (trace.step dflt visit_impl)
            { node := s.set_maxQueueSize size, derived := d, outputs := outputs
              }).node.queueSize) ∧
        (0 < size → size ≤ (cs.foldl (trace.step dflt visit_impl)
            { node := s.set_maxQueueSize size, derived := d, outputs := outputs
              }).node.queueSize →
          (cs.foldl (trace.step dflt visit_impl)
            { node := s.set_maxQueueSize size, derived := d, outputs := outputs }).node.enqueue
              dflt N component
            = (false, (cs.foldl (trace.step dflt visit_impl)
                { node := s.set_maxQueueSize size, derived := d, outputs := outputs }).node)) := by
  refine ⟨rfl, rfl, rfl, rfl, rfl, rfl, rfl, ?_⟩
  intro dflt visit_impl d outputs cs N component
  have hcap := trace.maxQueueSize_foldl dflt visit_impl cs
    { node := s.set_maxQueueSize size, derived := d, outputs := outputs }
  generalize cs.foldl (trace.step dflt visit_impl)
    { node := s.set_maxQueueSize size, derived := d, outputs := outputs } = t at hcap
  have hcap' : t.node.m_maxQueueSize = size := hcap
  refine ⟨hcap', ?_, ?_⟩
  · rw [proc_node.enqueue_refused_iff, hcap']
    rfl
  · intro h0 h1
    exact proc_node.enqueue_of_full dflt t.node N component (by omega)
      (by rw [hcap']; exact h1)

/-- C11 on the node of `proc_node_tests` that holds two tuples: with the capacity set to one
the two tuples are still there, and the next `enqueue` is refused. -/
theorem proc_node.set_maxQueueSize_spec_witness :
    (node_after_four.set_maxQueueSize 1).m_inputs = node_after_four.m_inputs ∧
      node_after_four.m_inputs.length = 2 ∧
      (node_after_four.set_maxQueueSize 1).maxQueueSize = 1 ∧
      ((node_after_four.set_maxQueueSize 1).enqueue vector_t_default 0 (.int 2)).1 = false := by
  obtain ⟨h1, -, -, h4, -, -, -, h8⟩ :=
    proc_node.set_maxQueueSize_spec (D := Unit) (E := Empty) (O := List Val) node_after_four 1
  refine ⟨h1, by decide, h4, ?_⟩
  exact (h8 vector_t_default (my_proc_node.visit_impl vector_t_default) () [] [] 0
    (.int 2)).2.1.mpr (by decide)

/-! ## No counter beyond the end of the queue -/

theorem size_t_incr_le (x : Nat) : size_t_incr x ≤ x + 1 := by
  unfold size_t_incr
  exact Nat.mod_le _ _

theorem size_t_decr_le {x n : Nat} (h0 : x ≠ 0) (h : x ≤ n) : size_t_decr x ≤ n - 1 := by
  unfold size_t_decr SIZE_T_MOD
  omega

namespace proc_node

variable {V D E O : Type}

/-- An `enqueue`, let in or not, keeps the counters within the queue; the slot need not be
one of the tuple, and the counters may have wrapped. -/
theorem in_range_enqueue (dflt : List V) (s : proc_node V) (N : Nat) (component : V)
    (h : ∀ c ∈ s.m_numInputs, c ≤ s.m_inputs.length) :
    (s.enqueue dflt N component).2.m_numInputs.length = s.m_numInputs.length ∧
      ∀ c ∈ (s.enqueue dflt N component).2.m_numInputs,
        c ≤ (s.enqueue dflt N component).2.m_inputs.length := by
  by_cases hfull : s.m_maxQueueSize ≠ 0 ∧ s.m_maxQueueSize ≤ s.m_inputs.length
  · rw [enqueue_of_full dflt s N component hfull.1 hfull.2]
    exact ⟨rfl, h⟩
  · have hcap : s.m_maxQueueSize = 0 ∨ s.m_inputs.length < s.m_maxQueueSize := by omega
    rw [enqueue_of_not_full dflt s N component hcap]
    refine ⟨by simp, ?_⟩
    intro c hc
    simp only [List.length_modify] at hc ⊢
    obtain ⟨k, hk, rfl⟩ := List.mem_iff_getElem.mp hc
    rw [List.getElem_modify]
    rw [List.length_modify] at hk
    have hk' := h _ (List.getElem_mem hk)
    by_cases hNk : N = k
    · subst hNk
      have hgetD : s.m_numInputs.getD N 0 = s.m_numInputs[N] := List.getD_eq_getElem _ _ hk
      have := size_t_incr_le s.m_numInputs[N]
      simp only [if_true, hgetD]
      split
      · simp
        omega
      · omega
    · simp only [hNk, if_false]
      split
      · simp
        omega
      · exact hk'

/-- A `visit()`, whatever its outcome, keeps the counters within the queue. -/
theorem in_range_visit (visit_impl : strategy V D E O) (d : D) (s : proc_node V)
    (h : ∀ c ∈ s.m_numInputs, c ≤ s.m_inputs.length) :
    (s.visit visit_impl d).2.2.m_numInputs.length = s.m_numInputs.length ∧
      ∀ c ∈ (s.visit visit_impl d).2.2.m_numInputs,
        c ≤ (s.visit visit_impl d).2.2.m_inputs.length := by
  by_cases hready : s.is_ready = true
  · rcases hv : visit_impl d s.m_inputs with ⟨r, d'⟩
    cases r with
    | thrown e =>
      rw [visit_of_thrown visit_impl d d' s e hready hv]
      exact ⟨rfl, h⟩
    | returned output =>
      rw [visit_of_returned visit_impl d d' s output hready hv]
      refine ⟨by simp, ?_⟩
      intro c hc
      simp only [List.mem_map] at hc
      obtain ⟨b, hb, rfl⟩ := hc
      simp only [List.length_tail]
      exact size_t_decr_le ((is_ready_iff_forall s).mp hready b hb) (h b hb)
  · rw [Bool.not_eq_true] at hready
    rw [visit_of_not_ready visit_impl d s hready]
    exact ⟨rfl, h⟩

end proc_node

theorem trace.exec_concat {V D E O : Type} (dflt : List V) (visit_impl : strategy V D E O)
    (d : D) (maxQueueSize : Nat) (cs : List (member_call V)) (c : member_call V) :
    trace.exec dflt visit_impl d maxQueueSize (cs ++ [c])
      = trace.apply dflt visit_impl (trace.exec dflt visit_impl d maxQueueSize cs) c := by
  simp [trace.exec, List.foldl_append]

/-- C12: in every state that calls of `enqueue`, `visit` and `maxQueueSize(size)` bring about
on a node as constructed, there is one counter for every slot and no counter is greater than
the number of tuples in the queue; so the position `m_numInputs[N]` at which `enqueue<N>`
writes is a position of the queue once `enqueue` has pushed a tuple when that position was the
size of the queue. -/
theorem trace.counters_in_range {V D E O : Type} (dflt : List V)
    (visit_impl : strategy V D E O) (d : D) (maxQueueSize : Nat)
    (cs : List (member_call V)) :
    (trace.exec dflt visit_impl d maxQueueSize cs).node.m_numInputs.length = dflt.length ∧
      (∀ c ∈ (trace.exec dflt visit_impl d maxQueueSize cs).node.m_numInputs,
        c ≤ (trace.exec dflt visit_impl d maxQueueSize cs).node.m_inputs.length) ∧
      ∀ N, N < dflt.length → ∃ NUM_INPUTS,
        (trace.exec dflt visit_impl d maxQueueSize cs).node.m_numInputs[N]? = some NUM_INPUTS ∧
        NUM_INPUTS ≤ (trace.exec dflt visit_impl d maxQueueSize cs).node.m_inputs.length ∧
        NUM_INPUTS <
          (if (trace.exec dflt visit_impl d maxQueueSize cs).node.m_inputs.length = NUM_INPUTS
            then (trace.exec dflt visit_impl d maxQueueSize cs).node.m_inputs ++ [dflt]
            else (trace.exec dflt visit_impl d maxQueueSize cs).node.m_inputs).length := by
  have key : (trace.exec dflt visit_impl d maxQueueSize cs).node.m_numInputs.length
        = dflt.length ∧
      ∀ c ∈ (trace.exec dflt visit_impl d maxQueueSize cs).node.m_numInputs,
        c ≤ (trace.exec dflt visit_impl d maxQueueSize cs).node.m_inputs.length := by
    induction cs using List.reverseRecOn with
    | nil => simp [trace.exec, proc_node.ctor]
    | append_singleton cs c ih =>
      rw [trace.exec_concat]
      generalize trace.exec dflt visit_impl d maxQueueSize cs = t at ih
      obtain ⟨hlen, hrange⟩ := ih
      cases c with
      | maxQueueSize size => exact ⟨hlen, hrange⟩
      | call c =>
        cases c with
        | enqueue N component =>
          simp only [trace.apply, trace.step]
          have := proc_node.in_range_enqueue dflt t.node N component hrange
          exact ⟨this.1.trans hlen, this.2⟩
        | visit =>
          simp only [trace.apply]
          rw [trace.step_visit_node]
          have := proc_node.in_range_visit visit_impl t.derived t.node hrange
          exact ⟨this.1.trans hlen, this.2⟩
  generalize trace.exec dflt visit_impl d maxQueueSize cs = t at key
  obtain ⟨hlen, hrange⟩ := key
  refine ⟨hlen, hrange, ?_⟩
  intro N hN
  have hNc : N < t.node.m_numInputs.length := by rw [hlen]; exact hN
  have hp := hrange _ (List.getElem_mem hNc)
  refine ⟨t.node.m_numInputs[N], List.getElem?_eq_getElem hNc, hp, ?_⟩
  split
  · simp
    omega
  · omega

/-! ## A full queue without a complete tuple -/

/-- On a full node that is not ready every call of `enqueue` and of `visit` is without
effect. -/
theorem trace.step_of_full_not_ready {V D E O : Type} (dflt : List V)
    (visit_impl : strategy V D E O) (t : trace V D O) (c : call V)
    (hC : 0 < t.node.m_maxQueueSize) (hfull : t.node.m_maxQueueSize ≤ t.node.m_inputs.length)
    (hnr : t.node.is_ready = false) :
    trace.step dflt visit_impl t c = t := by
  cases c with
  | enqueue N component =>
    simp only [trace.step]
    rw [proc_node.enqueue_of_full dflt t.node N component (by omega) hfull]
  | visit => exact trace.step_visit_of_not_ready dflt visit_impl t hnr

theorem trace.foldl_of_full_not_ready {V D E O : Type} (dflt : List V)
    (visit_impl : strategy V D E O) (t : trace V D O) (cs : List (call V))
    (hC : 0 < t.node.m_maxQueueSize) (hfull : t.node.m_maxQueueSize ≤ t.node.m_inputs.length)
    (hnr : t.node.is_ready = false) :
    cs.foldl (trace.step dflt visit_impl) t = t := by
  induction cs with
  | nil => rfl
  | cons c cs ih =>
    rw [List.foldl_cons, trace.step_of_full_not_ready dflt visit_impl t c hC hfull hnr]
    exact ih

/-- A node of capacity one with two slots or more is, after any calls, either as constructed
or full and not ready. -/
theorem trace.run_capacity_one {V D E O : Type} (dflt : List V)
    (visit_impl : strategy V D E O) (d : D) (cs : List (call V)) (h2 : 2 ≤ dflt.length) :
    (trace.run dflt visit_impl d 1 cs).node.m_maxQueueSize = 1 ∧
      (trace.run dflt visit_impl d 1 cs).node.is_ready = false ∧
      (((trace.run dflt visit_impl d 1 cs).node.m_inputs = [] ∧
          (trace.run dflt visit_impl d 1 cs).node.m_numInputs
            = List.replicate dflt.length 0) ∨
        1 ≤ (trace.run dflt visit_impl d 1 cs).node.m_inputs.length) := by
  induction cs using List.reverseRecOn with
  | nil =>
    refine ⟨rfl, ?_, Or.inl ⟨rfl, rfl⟩⟩
    exact active_proc_node.is_ready_ctor dflt.length 1 (by omega)
  | append_singleton cs c ih =>
    rw [trace.run_concat]
    generalize trace.run dflt visit_impl d 1 cs = t at ih
    obtain ⟨hcap, hnr, hcase⟩ := ih
    cases c with
    | visit =>
      rw [trace.step_visit_of_not_ready dflt visit_impl t hnr]
      exact ⟨hcap, hnr, hcase⟩
    | enqueue N component =>
      rcases hcase with ⟨hq, hcount⟩ | hlen
      · -- the first value: its tuple fills the queue, and another slot is missing
        simp only [trace.step]
        rw [proc_node.enqueue_of_not_full dflt t.node N component
          (Or.inr (by rw [hq, hcap]; simp))]
        have hp : t.node.m_numInputs.getD N 0 = 0 := by
          rw [hcount, List.getD_eq_getElem?_getD, List.getElem?_replicate]
          split <;> rfl
        refine ⟨hcap, ?_, Or.inr ?_⟩
        · rw [← Bool.not_eq_true, proc_node.is_ready_iff_forall]
          intro hall
          obtain ⟨j, hjN, hj⟩ : ∃ j, N ≠ j ∧ j < dflt.length := by
            by_cases h0 : N = 0
            · exact ⟨1, by omega, by omega⟩
            · exact ⟨0, h0, by omega⟩
          have hmem : (0 : Nat) ∈ List.modify size_t_incr N t.node.m_numInputs := by
            apply List.getElem?_mem (n := j)
            rw [List.getElem?_modify_ne _ _ hjN, hcount, List.getElem?_replicate]
            simp [hj]
          exact hall 0 hmem rfl
        · simp only [hp, hq]
          simp
      · rw [trace.step_of_full_not_ready dflt visit_impl t _ (by omega) (by omega) hnr]
        exact ⟨hcap, hnr, Or.inr hlen⟩

/-- C13: on a node with a capacity `C > 0` that holds `C` tuples or more and is not ready,
every `enqueue`, for any slot and any value, returns false (the `enqueue` of
`shared_proc_node` returns false when called with `block = false` and does not return when
called with `block = true`), and `visit()` throws "proc_node not ready"; no calls of `enqueue`
and `visit` change the node, the derived object or what has been returned, so the node is
never ready. A node of capacity one with two slots or more is never ready. -/
theorem trace.capacity_dead_end {V D E O : Type} (dflt : List V)
    (visit_impl : strategy V D E O) :
    (∀ t : trace V D O, 0 < t.node.m_maxQueueSize →
      t.node.m_maxQueueSize ≤ t.node.m_inputs.length → t.node.is_ready = false →
        (∀ N component, t.node.enqueue dflt N component = (false, t.node)) ∧
        (∀ N component,
          shared_proc_node.enqueue dflt t.node N component false = some (false, t.node)) ∧
        (∀ N component, shared_proc_node.enqueue dflt t.node N component true = none) ∧
        (∀ d, t.node.visit visit_impl d = (.thrown .not_ready, d, t.node)) ∧
        (∀ cs : List (call V), cs.foldl (trace.step dflt visit_impl) t = t) ∧
        (∀ cs : List (call V),
          (cs.foldl (trace.step dflt visit_impl) t).node.is_ready = false)) ∧
      (2 ≤ dflt.length → ∀ (d : D) (cs : List (call V)),
        (trace.run dflt visit_impl d 1 cs).node.is_ready = false) := by
  refine ⟨?_, ?_⟩
  · intro t hC hfull hnr
    have henq : ∀ N component, t.node.enqueue dflt N component = (false, t.node) :=
      fun N component => proc_node.enqueue_of_full dflt t.node N component (by omega) hfull
    have hfold := fun cs => trace.foldl_of_full_not_ready dflt visit_impl t cs hC hfull hnr
    refine ⟨henq, ?_, ?_, ?_, hfold, ?_⟩
    · intro N component
      simp [shared_proc_node.enqueue, henq]
    · intro N component
      have h0 : t.node.m_maxQueueSize ≠ 0 := by omega
      simp [shared_proc_node.enqueue, shared_proc_node.maxQueueSize,
        shared_proc_node.queueSize, proc_node.maxQueueSize, proc_node.queueSize, h0, hfull]
    · intro d
      exact proc_node.visit_of_not_ready visit_impl d t.node hnr
    · intro cs
      rw [hfold cs]
      exact hnr
  · intro h2 d cs
    exact (trace.run_capacity_one dflt visit_impl d cs h2).2.1

/-- C13 on a node of capacity one that holds the incomplete tuple `(1, _, _)`: the value `'x'`
for its slot 1 is refused, and the node is not ready after the calls of `proc_node_tests`. -/
theorem trace.capacity_dead_end_witness :
    node_full.enqueue vector_t_default 1 (.char 'x') = (false, node_full) ∧
      node_full.is_ready = false ∧
      (trace.run vector_t_default (my_proc_node.visit_impl vector_t_default) () 1
        proc_node_tests).node.is_ready = false := by
  have h := trace.capacity_dead_end vector_t_default (my_proc_node.visit_impl vector_t_default)
  exact ⟨(h.1 { node := node_full, derived := (), outputs := [] } (by decide) (by decide)
      (by decide)).1 1 (.char 'x'), by decide, h.2 (by decide) () proc_node_tests⟩

/-! ## A strategy that throws -/

/-- C14: when the strategy throws on a ready node, `visit()` throws what the strategy has
thrown and the node is what it was: the queue has its front tuple and every counter its
value, and `is_ready()` is still true. So for the `visit()` of `shared_proc_node`, and for
the node of a worker whose iteration calls `visit()`. -/
theorem proc_node.visit_strategy_fault {V D E O : Type} (visit_impl : strategy V D E O)
    (d d' : D) (s : proc_node V) (e : E) (hready : s.is_ready = true)
    (hv : visit_impl d s.m_inputs = (.thrown e, d')) :
    (s.visit visit_impl d).1 = .thrown (.strategy_fault e) ∧
      (s.visit visit_impl d).2.2 = s ∧
      (s.visit visit_impl d).2.2.m_inputs = s.m_inputs ∧
      (s.visit visit_impl d).2.2.m_inputs.head? = s.m_inputs.head? ∧
      (s.visit visit_impl d).2.2.m_numInputs = s.m_numInputs ∧
      (s.visit visit_impl d).2.2.is_ready = true ∧
      shared_proc_node.visit visit_impl d s = (.thrown (.strategy_fault e), d', s) ∧
      ∀ a : active_proc_node V D, a.base = s → a.derived = d →
        (active_proc_node.iteration visit_impl a).base = s ∧
        shared_proc_node.is_ready (active_proc_node.iteration visit_impl a).base = true := by
  have h := proc_node.visit_of_thrown visit_impl d d' s e hready hv
  rw [h]
  refine ⟨rfl, rfl, rfl, rfl, rfl, hready, h, ?_⟩
  intro a ha hd
  subst ha hd
  have hr : shared_proc_node.is_ready a.base = true := hready
  have hvis : shared_proc_node.visit visit_impl a.derived a.base
      = (.thrown (.strategy_fault e), d', a.base) := h
  simp [active_proc_node.iteration, hr, hvis, active_proc_node.leave]

/-- C14 on the node of `proc_node_tests` whose front tuple is complete, with a strategy that
throws. -/
theorem proc_node.visit_strategy_fault_witness :
    (node_after_four.visit faulty_visit_impl ()).1 = .thrown (.strategy_fault "fault") ∧
      (node_after_four.visit faulty_visit_impl ()).2.2 = node_after_four ∧
      (node_after_four.visit faulty_visit_impl ()).2.2.is_ready = true := by
  obtain ⟨h1, h2, -, -, -, h6, -⟩ :=
    proc_node.visit_strategy_fault faulty_visit_impl () () node_after_four "fault"
      (by decide) (by decide)
  exact ⟨h1, h2, h6⟩

end ExecutionGraph
